import Mathlib

/-!
Verification of the fintech news scraper core: per-domain rate limiter,
retrying fetch client, TF-IDF vectorizer, dedup engine, link discovery
and the pipeline merge/cap stage, shallowly embedded from the Python
source (`fintech_news_scraper`).
-/

/-! ### Per-domain rate limiter (`http.py`, `DomainRateLimiter`)

The limiter keeps, per domain, an ordered list of admission timestamps.
`acquire` (under the per-domain lock) prunes entries older than
`now - period`, then appends `now` and admits only when the pruned count
is strictly below the maximum; otherwise it releases the lock, sleeps and
re-checks.  Time is modelled by `ℚ`; one `acquireStep` is one execution
of the locked check-and-record section at instant `now`. -/

namespace DomainRateLimiter

/-- The pruning loop `while times and times[0] < cutoff: times.pop(0)`. -/
def prune (period now : ℚ) (times : List ℚ) : List ℚ :=
  times.dropWhile (fun t => decide (t < now - period))

/-- One execution of the locked section of `acquire` at instant `now`:
prune, then append `now` when strictly below the maximum (admission),
else leave the pruned list (the caller sleeps and re-checks later). -/
def acquireStep (mx : ℕ) (period now : ℚ) (times : List ℚ) : List ℚ :=
  let pruned := prune period now times
  if pruned.length < mx then pruned ++ [now] else pruned

/-- Global limiter state: the per-domain timestamp lists
(`self._domain_times`, with `setdefault domain []`). -/
def stepState (mx : ℕ) (period : ℚ) (domain : String) (now : ℚ)
    (st : String → List ℚ) : String → List ℚ :=
  fun d => if d = domain then acquireStep mx period now (st domain) else st d

/-- States reachable from the empty limiter by interleaved `acquire`
check-and-record sections (any domains, any instants). -/
inductive Reachable (mx : ℕ) (period : ℚ) : (String → List ℚ) → Prop where
  | init : Reachable mx period (fun _ => [])
  | step (domain : String) (now : ℚ) {st : String → List ℚ} :
      Reachable mx period st → Reachable mx period (stepState mx period domain now st)

/-- Number of recorded admission timestamps inside the trailing window
`[now - period, now]`. -/
def windowCount (period now : ℚ) (times : List ℚ) : ℕ :=
  (times.filter (fun t => decide (now - period ≤ t) && decide (t ≤ now))).length

theorem prune_length_le (period now : ℚ) (times : List ℚ) :
    (prune period now times).length ≤ times.length :=
  (List.dropWhile_sublist _).length_le

theorem acquireStep_length_le (mx : ℕ) (period now : ℚ) (times : List ℚ)
    (h : times.length ≤ mx) : (acquireStep mx period now times).length ≤ mx := by
  unfold acquireStep
  by_cases hlt : (prune period now times).length < mx
  · simp only [hlt, if_true, List.length_append, List.length_cons, List.length_nil]
    omega
  · simp only [hlt, if_false]
    exact le_trans (prune_length_le period now times) h

theorem reachable_length_le {mx : ℕ} {period : ℚ} {st : String → List ℚ}
    (h : Reachable mx period st) : ∀ d, (st d).length ≤ mx := by
  induction h with
  | init => intro d; simp
  | step domain now _ ih =>
      intro d
      unfold stepState
      by_cases hd : d = domain
      · simp only [hd, if_true]
        exact acquireStep_length_le _ _ _ _ (ih domain)
      · simp only [hd, if_false]
        exact ih d

end DomainRateLimiter

/-! ### Retrying fetch client (`http.py`, `HttpClient.get_text`)

The network is abstracted by an `oracle` giving the outcome of each
attempt (1-based).  The loop `for attempt in range(1, max_attempts + 1)`
is embedded with the remaining iteration count as fuel; the code's own
test `attempt >= max_attempts` is kept verbatim.  The embedding also
counts the attempts actually performed. -/

/-- Mirror of the `RetryPolicy` dataclass. -/
structure RetryPolicy where
  max_attempts : ℕ
  base_delay_seconds : ℚ
  max_delay_seconds : ℚ
  retry_statuses : List ℕ
deriving DecidableEq

/-- Outcome of one HTTP attempt: a response with a status and decoded
body, or a network error / timeout (`aiohttp.ClientError`,
`asyncio.TimeoutError`). -/
inductive FetchAttempt where
  | response (status : ℕ) (body : String)
  | netError
deriving DecidableEq

/-- An attempt outcome the code treats as transient: a status in
`retry_statuses` (re-raised as `ClientResponseError`) or a network
error / timeout. -/
def isTransientAttempt (rs : List ℕ) : FetchAttempt → Bool
  | .response s _ => rs.contains s
  | .netError => true

/-- The retry loop of `get_text`, current attempt number `attempt`,
`fuel` iterations left.  Returns the result together with the number of
attempts performed. -/
def getTextLoop (retry : RetryPolicy) (oracle : ℕ → FetchAttempt) :
    ℕ → ℕ → Option String × ℕ
  | _, 0 => (none, 0)
  | attempt, fuel + 1 =>
    match oracle attempt with
    | .response s body =>
      if retry.retry_statuses.contains s then
        if retry.max_attempts ≤ attempt then (none, 1)
        else
          let r := getTextLoop retry oracle (attempt + 1) fuel
          (r.1, r.2 + 1)
      else if 400 ≤ s then (none, 1)
      else (some body, 1)
    | .netError =>
      if retry.max_attempts ≤ attempt then (none, 1)
      else
        let r := getTextLoop retry oracle (attempt + 1) fuel
        (r.1, r.2 + 1)

/-- `HttpClient.get_text`, with the per-attempt network outcome supplied
by `oracle`; second component is the number of attempts performed. -/
def get_text (retry : RetryPolicy) (oracle : ℕ → FetchAttempt) : Option String × ℕ :=
  getTextLoop retry oracle 1 retry.max_attempts

theorem getTextLoop_transientStep (retry : RetryPolicy) (oracle : ℕ → FetchAttempt)
    (attempt n : ℕ)
    (htra : isTransientAttempt retry.retry_statuses (oracle attempt) = true)
    (hnmax : ¬ retry.max_attempts ≤ attempt) :
    getTextLoop retry oracle attempt (n + 1)
      = ((getTextLoop retry oracle (attempt + 1) n).1,
         (getTextLoop retry oracle (attempt + 1) n).2 + 1) := by
  cases hor : oracle attempt with
  | response s2 b2 =>
      rw [hor] at htra
      simp [getTextLoop, hor, isTransientAttempt] at htra ⊢
      simp [htra, hnmax]
  | netError =>
      simp [getTextLoop, hor, hnmax]

theorem getTextLoop_lastTransient (retry : RetryPolicy) (oracle : ℕ → FetchAttempt)
    (attempt n : ℕ)
    (htra : isTransientAttempt retry.retry_statuses (oracle attempt) = true)
    (hmax : retry.max_attempts ≤ attempt) :
    getTextLoop retry oracle attempt (n + 1) = (none, 1) := by
  cases hor : oracle attempt with
  | response s2 b2 =>
      rw [hor] at htra
      simp [isTransientAttempt] at htra
      simp [getTextLoop, hor, htra, hmax]
  | netError =>
      simp [getTextLoop, hor, hmax]

theorem getTextLoop_success (retry : RetryPolicy) (oracle : ℕ → FetchAttempt)
    (k s : ℕ) (body : String) :
    ∀ fuel attempt, attempt + fuel = retry.max_attempts + 1 → 1 ≤ attempt →
    attempt ≤ k → k ≤ retry.max_attempts →
    (∀ j, attempt ≤ j → j < k → isTransientAttempt retry.retry_statuses (oracle j) = true) →
    oracle k = .response s body → retry.retry_statuses.contains s = false → s < 400 →
    getTextLoop retry oracle attempt fuel = (some body, k + 1 - attempt) := by
  intro fuel
  induction fuel with
  | zero => intro attempt hsum h1 hak hkm _ _ _ _; omega
  | succ n ih =>
      intro attempt hsum h1 hak hkm htr hk hcs hs400
      by_cases hattk : attempt = k
      · subst hattk
        have h2 : ¬ 400 ≤ s := by omega
        have hcs2 : s ∉ retry.retry_statuses := by simpa using hcs
        have hred : getTextLoop retry oracle attempt (n + 1) = (some body, 1) := by
          simp [getTextLoop, hk, hcs2, h2]
        rw [hred]
        have h3 : attempt + 1 - attempt = 1 := by omega
        rw [h3]
      · have hlt : attempt < k := lt_of_le_of_ne hak hattk
        rw [getTextLoop_transientStep retry oracle attempt n
          (htr attempt le_rfl hlt) (by omega)]
        rw [ih (attempt + 1) (by omega) (by omega) (by omega) hkm
          (fun j hj1 hj2 => htr j (by omega) hj2) hk hcs hs400]
        rw [Prod.ext_iff]
        refine ⟨rfl, ?_⟩
        dsimp only
        omega

theorem getTextLoop_terminal (retry : RetryPolicy) (oracle : ℕ → FetchAttempt)
    (k s : ℕ) (body : String) :
    ∀ fuel attempt, attempt + fuel = retry.max_attempts + 1 → 1 ≤ attempt →
    attempt ≤ k → k ≤ retry.max_attempts →
    (∀ j, attempt ≤ j → j < k → isTransientAttempt retry.retry_statuses (oracle j) = true) →
    oracle k = .response s body → retry.retry_statuses.contains s = false → 400 ≤ s →
    getTextLoop retry oracle attempt fuel = (none, k + 1 - attempt) := by
  intro fuel
  induction fuel with
  | zero => intro attempt hsum h1 hak hkm _ _ _ _; omega
  | succ n ih =>
      intro attempt hsum h1 hak hkm htr hk hcs hs400
      by_cases hattk : attempt = k
      · subst hattk
        have hcs2 : s ∉ retry.retry_statuses := by simpa using hcs
        have hred : getTextLoop retry oracle attempt (n + 1) = (none, 1) := by
          simp [getTextLoop, hk, hcs2, hs400]
        rw [hred]
        have h3 : attempt + 1 - attempt = 1 := by omega
        rw [h3]
      · have hlt : attempt < k := lt_of_le_of_ne hak hattk
        rw [getTextLoop_transientStep retry oracle attempt n
          (htr attempt le_rfl hlt) (by omega)]
        rw [ih (attempt + 1) (by omega) (by omega) (by omega) hkm
          (fun j hj1 hj2 => htr j (by omega) hj2) hk hcs hs400]
        rw [Prod.ext_iff]
        refine ⟨rfl, ?_⟩
        dsimp only
        omega

theorem getTextLoop_allTransient (retry : RetryPolicy) (oracle : ℕ → FetchAttempt) :
    ∀ fuel attempt, attempt + fuel = retry.max_attempts + 1 → 1 ≤ attempt →
    attempt ≤ retry.max_attempts →
    (∀ j, attempt ≤ j → j ≤ retry.max_attempts →
      isTransientAttempt retry.retry_statuses (oracle j) = true) →
    getTextLoop retry oracle attempt fuel = (none, retry.max_attempts + 1 - attempt) := by
  intro fuel
  induction fuel with
  | zero => intro attempt hsum h1 ham _; omega
  | succ n ih =>
      intro attempt hsum h1 ham htr
      have htra := htr attempt le_rfl ham
      by_cases hlast : retry.max_attempts ≤ attempt
      · rw [getTextLoop_lastTransient retry oracle attempt n htra hlast]
        have h3 : retry.max_attempts + 1 - attempt = 1 := by omega
        rw [h3]
      · rw [getTextLoop_transientStep retry oracle attempt n htra hlast]
        rw [ih (attempt + 1) (by omega) (by omega) (by omega)
          (fun j hj1 hj2 => htr j (by omega) hj2)]
        rw [Prod.ext_iff]
        refine ⟨rfl, ?_⟩
        dsimp only
        omega

/-- C1: for every domain and every state of the `DomainRateLimiter`
reachable from the empty state by interleaved `acquire` check-and-record
steps, the number of recorded admission timestamps inside any trailing
window `[now - period, now]` never exceeds `max_requests_per_period`:
`acquire` prunes entries older than `now - period` and appends the
current instant only when the pruned count is strictly below the
maximum. -/
theorem rateLimiter_window_never_exceeds_max {mx : ℕ} {period : ℚ}
    {st : String → List ℚ} (h : DomainRateLimiter.Reachable mx period st)
    (domain : String) (now : ℚ) :
    DomainRateLimiter.windowCount period now (st domain) ≤ mx := by
  calc DomainRateLimiter.windowCount period now (st domain)
      ≤ (st domain).length := List.length_filter_le _ _
    _ ≤ mx := DomainRateLimiter.reachable_length_le h domain

/-- Witness for C1: after two admissions on `example.com` (at instants 0
and 1/2, period 1, maximum 2), the window count at `now = 1` is within
the bound. -/
theorem rateLimiter_window_never_exceeds_max_witness :
    DomainRateLimiter.windowCount 1 1
      ((DomainRateLimiter.stepState 2 1 "example.com" (1/2)
        (DomainRateLimiter.stepState 2 1 "example.com" 0 (fun _ => [])))
        "example.com") ≤ 2 :=
  rateLimiter_window_never_exceeds_max
    (DomainRateLimiter.Reachable.step "example.com" (1/2)
      (DomainRateLimiter.Reachable.step "example.com" 0
        DomainRateLimiter.Reachable.init)) "example.com" 1

/-- C2: `HttpClient.get_text` returns the decoded body of the first
attempt whose status is below 400 and not in `retry_statuses` (all
earlier attempts being transient); a status `≥ 400` outside
`retry_statuses` on such a first non-transient attempt returns no text
immediately, using exactly that many attempts (one for an immediate
404); a status in `retry_statuses`, a network error or a timeout is
transient, and after `max_attempts` transient failures the call returns
no text having used exactly `max_attempts` attempts. -/
theorem get_text_retry_behavior (retry : RetryPolicy) (oracle : ℕ → FetchAttempt) :
    (∀ k s body, 1 ≤ k → k ≤ retry.max_attempts →
      (∀ j, 1 ≤ j → j < k → isTransientAttempt retry.retry_statuses (oracle j) = true) →
      oracle k = .response s body → retry.retry_statuses.contains s = false → s < 400 →
      get_text retry oracle = (some body, k)) ∧
    (∀ k s body, 1 ≤ k → k ≤ retry.max_attempts →
      (∀ j, 1 ≤ j → j < k → isTransientAttempt retry.retry_statuses (oracle j) = true) →
      oracle k = .response s body → retry.retry_statuses.contains s = false → 400 ≤ s →
      get_text retry oracle = (none, k)) ∧
    (1 ≤ retry.max_attempts →
      (∀ j, 1 ≤ j → j ≤ retry.max_attempts →
        isTransientAttempt retry.retry_statuses (oracle j) = true) →
      get_text retry oracle = (none, retry.max_attempts)) := by
  refine ⟨?_, ?_, ?_⟩
  · intro k s body h1 hkm htr hk hcs hs
    have := getTextLoop_success retry oracle k s body retry.max_attempts 1
      (by omega) le_rfl h1 hkm (fun j hj1 hj2 => htr j hj1 hj2) hk hcs hs
    unfold get_text
    rw [this]
    simp
  · intro k s body h1 hkm htr hk hcs hs
    have := getTextLoop_terminal retry oracle k s body retry.max_attempts 1
      (by omega) le_rfl h1 hkm (fun j hj1 hj2 => htr j hj1 hj2) hk hcs hs
    unfold get_text
    rw [this]
    simp
  · intro hm htr
    have := getTextLoop_allTransient retry oracle retry.max_attempts 1
      (by omega) le_rfl hm (fun j hj1 hj2 => htr j hj1 hj2)
    unfold get_text
    rw [this]
    simp

/-- A concrete network: retryable 503 on attempts 1 and 2, then 200. -/
def oracleRetryTwice : ℕ → FetchAttempt :=
  fun j => if j ≤ 2 then .response 503 "busy" else .response 200 "ok"

/-- Witness for C2: with `max_attempts = 3` and `retry_statuses = {503}`,
a 503 on attempts 1 and 2 followed by a 200 on attempt 3 returns the
successful body after exactly 3 attempts. -/
theorem get_text_retry_behavior_witness :
    get_text ⟨3, 1, 10, [503]⟩ oracleRetryTwice = (some "ok", 3) :=
  (get_text_retry_behavior ⟨3, 1, 10, [503]⟩ oracleRetryTwice).1 3 200 "ok"
    (by decide) (by decide)
    (by
      intro j hj1 hj2
      interval_cases j <;> decide)
    (by decide) (by decide) (by decide)

/-! ### Articles and fair capping (`pipeline.py`, `_round_robin_by_source`)

`Article` is embedded with the fields the merge/cap stage reads (the
enrichment-only fields are omitted).  The nested function
`_round_robin_by_source` groups candidates into per-source buckets (a
dict plus a first-seen `order` list) and pops one candidate per
non-empty bucket per round until `limit` is reached or no bucket
progresses. -/

/-- The fields of the `Article` dataclass used by candidate merging and
fair capping. -/
structure Article where
  source : String
  title : String
  url : String
  summary : Option String := none
  text : Option String := none
deriving DecidableEq

namespace RoundRobin

/-- Append `a` to the bucket keyed `sid`, creating the bucket at the end
when absent: the dict update plus `order.append` of the source loop. -/
def addToBuckets : List (String × List Article) → String → Article → List (String × List Article)
  | [], sid, a => [(sid, [a])]
  | (s, l) :: rest, sid, a =>
      if s = sid then (s, l ++ [a]) :: rest
      else (s, l) :: addToBuckets rest sid a

/-- The bucket-building loop (`for it in items: ... buckets[sid].append(it)`),
with the dict in first-seen key order. -/
def buildBuckets (items : List Article) : List (String × List Article) :=
  items.foldl (fun bs it => addToBuckets bs it.source it) []

/-- One pass of `for sid in order`: pop the head of each non-empty
bucket into `out`, breaking as soon as `len(out) >= limit`; the Boolean
is the `progressed` flag. -/
def popRound (limit : ℤ) :
    List (String × List Article) → List Article →
    List (String × List Article) × List Article × Bool
  | [], out => ([], out, false)
  | (sid, b) :: rest, out =>
    match b with
    | [] =>
      match popRound limit rest out with
      | (rest2, out2, p) => ((sid, []) :: rest2, out2, p)
    | a :: b2 =>
      let out2 := out ++ [a]
      if limit ≤ (out2.length : ℤ) then ((sid, b2) :: rest, out2, true)
      else
        match popRound limit rest out2 with
        | (rest2, out3, _) => ((sid, b2) :: rest2, out3, true)

/-- Total number of articles left in the buckets. -/
def bucketsSize (bs : List (String × List Article)) : ℕ :=
  (bs.map (fun p => p.2.length)).sum

/-- First-seen bucket heads, in order. -/
def headsB (bs : List (String × List Article)) : List Article :=
  bs.filterMap (fun p => p.2.head?)

/-- All buckets with their heads removed. -/
def tailsB (bs : List (String × List Article)) : List (String × List Article) :=
  bs.map (fun p => (p.1, p.2.tail))

theorem popRound_size_le (limit : ℤ) :
    ∀ (bs : List (String × List Article)) (out : List Article),
    bucketsSize (popRound limit bs out).1 ≤ bucketsSize bs := by
  intro bs
  induction bs with
  | nil => intro out; simp [popRound]
  | cons hd rest ih =>
      intro out
      obtain ⟨sid, b⟩ := hd
      cases b with
      | nil =>
          simp only [popRound]
          cases hpr : popRound limit rest out with
          | mk rest2 q =>
              have := ih out
              rw [hpr] at this
              dsimp only at this ⊢
              simp only [bucketsSize, List.map_cons, List.sum_cons] at this ⊢
              omega
      | cons a b2 =>
          simp only [popRound]
          by_cases hbr : limit ≤ ((out ++ [a]).length : ℤ)
          · simp only [hbr, if_true]
            simp only [bucketsSize, List.map_cons, List.sum_cons, List.length_cons]
            omega
          · simp only [hbr, if_false]
            cases hpr : popRound limit rest (out ++ [a]) with
            | mk rest2 q =>
                have := ih (out ++ [a])
                rw [hpr] at this
                dsimp only at this ⊢
                simp only [bucketsSize, List.map_cons, List.sum_cons, List.length_cons] at this ⊢
                omega

theorem popRound_progress (limit : ℤ) :
    ∀ (bs : List (String × List Article)) (out : List Article),
    (popRound limit bs out).2.2 = true →
    bucketsSize (popRound limit bs out).1 < bucketsSize bs := by
  intro bs
  induction bs with
  | nil => intro out h; simp [popRound] at h
  | cons hd rest ih =>
      intro out h
      obtain ⟨sid, b⟩ := hd
      cases b with
      | nil =>
          simp only [popRound] at h ⊢
          cases hpr : popRound limit rest out with
          | mk rest2 q =>
              have hr := ih out
              rw [hpr] at hr
              rw [hpr] at h
              dsimp only at h hr ⊢
              have hlt := hr h
              simp only [bucketsSize, List.map_cons, List.sum_cons] at hlt ⊢
              omega
      | cons a b2 =>
          simp only [popRound]
          by_cases hbr : limit ≤ ((out ++ [a]).length : ℤ)
          · simp only [hbr, if_true]
            simp only [bucketsSize, List.map_cons, List.sum_cons, List.length_cons]
            omega
          · simp only [hbr, if_false]
            cases hpr : popRound limit rest (out ++ [a]) with
            | mk rest2 q =>
                have hmono := popRound_size_le limit rest (out ++ [a])
                rw [hpr] at hmono
                dsimp only at hmono ⊢
                simp only [bucketsSize, List.map_cons, List.sum_cons, List.length_cons] at hmono ⊢
                omega

/-- The `while len(out) < limit` loop of `_round_robin_by_source`:
run one round; stop when no bucket progressed or the limit is reached. -/
def rrLoop (limit : ℤ) (bs : List (String × List Article)) (out : List Article) : List Article :=
  if (out.length : ℤ) < limit then
    let r := popRound limit bs out
    if h : r.2.2 = true then rrLoop limit r.1 r.2.1
    else r.2.1
  else out
termination_by bucketsSize bs
decreasing_by exact popRound_progress limit bs out h

end RoundRobin

/-- `_round_robin_by_source(items, limit)` from `run_pipeline`. -/
def _round_robin_by_source (items : List Article) (limit : ℤ) : List Article :=
  if limit ≤ 0 then []
  else RoundRobin.rrLoop limit (RoundRobin.buildBuckets items) []

namespace RoundRobin

theorem tails_len_le (l : List Article) : (List.tail l).length ≤ l.length := by
  cases l <;> simp

theorem tails_sum_le (ls : List (List Article)) :
    ((ls.map List.tail).map List.length).sum ≤ (ls.map List.length).sum := by
  induction ls with
  | nil => simp
  | cons x xs ih =>
      simp only [List.map_cons, List.sum_cons]
      have := tails_len_le x
      omega

theorem tails_sum_lt (ls : List (List Article)) (h : ls.filterMap List.head? ≠ []) :
    ((ls.map List.tail).map List.length).sum < (ls.map List.length).sum := by
  induction ls with
  | nil => simp at h
  | cons x xs ih =>
      cases x with
      | nil =>
          simp only [List.filterMap_cons, List.head?] at h
          simp only [List.map_cons, List.sum_cons, List.tail]
          have := ih h
          omega
      | cons a t =>
          simp only [List.map_cons, List.sum_cons, List.tail]
          have := tails_sum_le xs
          simp only [List.length_cons]
          omega

/-- Spec-side round-robin flattening: concatenate the heads of the
non-empty buckets, round after round, until all buckets are exhausted. -/
def rrAll (ls : List (List Article)) : List Article :=
  if h : ls.filterMap List.head? = [] then []
  else ls.filterMap List.head? ++ rrAll (ls.map List.tail)
termination_by (ls.map List.length).sum
decreasing_by exact tails_sum_lt ls h

theorem rrAll_empty (ls : List (List Article)) (h : ls.filterMap List.head? = []) :
    rrAll ls = [] := by
  unfold rrAll
  simp [h]

theorem rrAll_step (ls : List (List Article)) (h : ls.filterMap List.head? ≠ []) :
    rrAll ls = ls.filterMap List.head? ++ rrAll (ls.map List.tail) := by
  conv_lhs => rw [rrAll]
  simp [h]

theorem rrLoop_stop (limit : ℤ) (bs : List (String × List Article)) (out : List Article)
    (h : ¬ (out.length : ℤ) < limit) : rrLoop limit bs out = out := by
  unfold rrLoop
  simp [h]

theorem rrLoop_go (limit : ℤ) (bs : List (String × List Article)) (out : List Article)
    (h : (out.length : ℤ) < limit) :
    rrLoop limit bs out =
      if (popRound limit bs out).2.2 = true then
        rrLoop limit (popRound limit bs out).1 (popRound limit bs out).2.1
      else (popRound limit bs out).2.1 := by
  conv_lhs => rw [rrLoop]
  simp [h]

theorem headsB_map_snd (bs : List (String × List Article)) :
    (bs.map Prod.snd).filterMap List.head? = headsB bs := by
  rw [List.filterMap_map]
  rfl

theorem tailsB_map_snd (bs : List (String × List Article)) :
    (tailsB bs).map Prod.snd = (bs.map Prod.snd).map List.tail := by
  simp [tailsB, List.map_map]

theorem bucketsSize_eq (bs : List (String × List Article)) :
    bucketsSize bs = ((bs.map Prod.snd).map List.length).sum := by
  simp [bucketsSize, List.map_map]
  rfl

theorem headsB_nil_of_size_zero (bs : List (String × List Article))
    (h : bucketsSize bs = 0) : headsB bs = [] := by
  induction bs with
  | nil => rfl
  | cons hd rest ih =>
      obtain ⟨sid, b⟩ := hd
      simp only [bucketsSize, List.map_cons, List.sum_cons] at h
      have hb : b.length = 0 := by omega
      have hr : bucketsSize rest = 0 := by simp [bucketsSize]; omega
      cases b with
      | nil => simp only [headsB, List.filterMap_cons, List.head?]; exact ih hr
      | cons a t => simp at hb

theorem popRound_allEmpty (limit : ℤ) :
    ∀ (bs : List (String × List Article)) (out : List Article), headsB bs = [] →
    popRound limit bs out = (bs, out, false) := by
  intro bs
  induction bs with
  | nil => intro out _; rfl
  | cons hd rest ih =>
      intro out h
      obtain ⟨sid, b⟩ := hd
      cases b with
      | cons a t => simp [headsB, List.filterMap_cons, List.head?] at h
      | nil =>
          simp only [headsB, List.filterMap_cons, List.head?] at h
          simp only [popRound]
          rw [ih out h]

theorem popRound_noBreak (limit : ℤ) :
    ∀ (bs : List (String × List Article)) (out : List Article),
    ((out.length : ℤ) + ((headsB bs).length : ℤ) < limit) →
    popRound limit bs out = (tailsB bs, out ++ headsB bs, !(headsB bs).isEmpty) := by
  intro bs
  induction bs with
  | nil => intro out _; simp [popRound, headsB, tailsB]
  | cons hd rest ih =>
      intro out h
      obtain ⟨sid, b⟩ := hd
      cases b with
      | nil =>
          have hh : headsB ((sid, []) :: rest) = headsB rest := by
            simp [headsB, List.filterMap_cons, List.head?]
          rw [hh] at h ⊢
          simp only [popRound]
          rw [ih out h]
          simp [tailsB]
      | cons a t =>
          have hh : headsB ((sid, a :: t) :: rest) = a :: headsB rest := by
            simp [headsB, List.filterMap_cons, List.head?]
          rw [hh] at h ⊢
          simp only [popRound]
          have hnb : ¬ limit ≤ ((out ++ [a]).length : ℤ) := by
            simp only [List.length_append, List.length_cons, List.length_nil]
            simp only [List.length_cons] at h
            push_cast at h ⊢
            omega
          simp only [hnb, if_false]
          have hrec := ih (out ++ [a]) (by
            simp only [List.length_append, List.length_cons, List.length_nil]
            simp only [List.length_cons] at h
            push_cast at h ⊢
            omega)
          rw [hrec]
          simp [tailsB, List.isEmpty]

theorem popRound_break (limit : ℤ) :
    ∀ (bs : List (String × List Article)) (out : List Article),
    (out.length : ℤ) < limit → limit ≤ (out.length : ℤ) + ((headsB bs).length : ℤ) →
    (popRound limit bs out).2.1 = out ++ (headsB bs).take (limit - out.length).toNat ∧
    (popRound limit bs out).2.2 = true := by
  intro bs
  induction bs with
  | nil =>
      intro out h1 h2
      simp only [headsB, List.filterMap_nil, List.length_nil] at h2
      omega
  | cons hd rest ih =>
      intro out h1 h2
      obtain ⟨sid, b⟩ := hd
      cases b with
      | nil =>
          have hh : headsB ((sid, []) :: rest) = headsB rest := by
            simp [headsB, List.filterMap_cons, List.head?]
          rw [hh] at h2 ⊢
          simp only [popRound]
          cases hpr : popRound limit rest out with
          | mk rest2 q =>
              have := ih out h1 h2
              rw [hpr] at this
              exact this
      | cons a t =>
          have hh : headsB ((sid, a :: t) :: rest) = a :: headsB rest := by
            simp [headsB, List.filterMap_cons, List.head?]
          rw [hh] at h2 ⊢
          simp only [popRound]
          by_cases hbr : limit ≤ ((out ++ [a]).length : ℤ)
          · simp only [hbr, if_true]
            refine ⟨?_, by trivial⟩
            have hk : (limit - (out.length : ℤ)).toNat = 1 := by
              simp only [List.length_append, List.length_cons, List.length_nil] at hbr
              push_cast at hbr
              omega
            rw [hk]
            simp
          · simp only [hbr, if_false]
            have hlen : ((out ++ [a]).length : ℤ) = (out.length : ℤ) + 1 := by
              simp
            have hrec := ih (out ++ [a]) (by omega) (by
              rw [hlen]
              simp only [List.length_cons] at h2
              push_cast at h2 ⊢
              omega)
            cases hpr : popRound limit rest (out ++ [a]) with
            | mk rest2 q =>
                rw [hpr] at hrec
                dsimp only at hrec ⊢
                refine ⟨?_, by trivial⟩
                rw [hrec.1, hlen]
                have hk : (limit - (out.length : ℤ)).toNat
                    = ((limit - ((out.length : ℤ) + 1)).toNat) + 1 := by omega
                rw [hk]
                simp [List.take_succ_cons]

theorem tailsB_size_lt (bs : List (String × List Article)) (h : headsB bs ≠ []) :
    bucketsSize (tailsB bs) < bucketsSize bs := by
  rw [bucketsSize_eq, bucketsSize_eq, tailsB_map_snd]
  apply tails_sum_lt
  rw [headsB_map_snd]
  exact h

theorem rrLoop_eq_rrAll (limit : ℤ) :
    ∀ (n : ℕ) (bs : List (String × List Article)) (out : List Article),
    bucketsSize bs ≤ n → (out.length : ℤ) ≤ limit →
    rrLoop limit bs out
      = out ++ (rrAll (bs.map Prod.snd)).take (limit - out.length).toNat := by
  intro n
  induction n with
  | zero =>
      intro bs out hsz hol
      have hhe : headsB bs = [] := headsB_nil_of_size_zero bs (by omega)
      have hra : rrAll (bs.map Prod.snd) = [] := by
        apply rrAll_empty
        rw [headsB_map_snd]
        exact hhe
      rw [hra]
      simp only [List.take_nil, List.append_nil]
      by_cases hlt : (out.length : ℤ) < limit
      · rw [rrLoop_go limit bs out hlt, popRound_allEmpty limit bs out hhe]
        simp
      · exact rrLoop_stop limit bs out hlt
  | succ n ih =>
      intro bs out hsz hol
      by_cases hlt : (out.length : ℤ) < limit
      · by_cases hhe : headsB bs = []
        · have hra : rrAll (bs.map Prod.snd) = [] := by
            apply rrAll_empty
            rw [headsB_map_snd]
            exact hhe
          rw [hra]
          simp only [List.take_nil, List.append_nil]
          rw [rrLoop_go limit bs out hlt, popRound_allEmpty limit bs out hhe]
          simp
        · have hstep : rrAll (bs.map Prod.snd)
              = headsB bs ++ rrAll ((tailsB bs).map Prod.snd) := by
            rw [rrAll_step]
            · rw [headsB_map_snd, tailsB_map_snd]
            · rw [headsB_map_snd]
              exact hhe
          by_cases hbrk : limit ≤ (out.length : ℤ) + ((headsB bs).length : ℤ)
          · obtain ⟨hval, hprog⟩ := popRound_break limit bs out hlt hbrk
            rw [rrLoop_go limit bs out hlt, if_pos hprog, hval]
            have hlen2 : ¬ ((out ++ (headsB bs).take (limit - (out.length : ℤ)).toNat).length : ℤ)
                < limit := by
              simp only [List.length_append, List.length_take]
              push_cast
              omega
            rw [rrLoop_stop _ _ _ hlen2, hstep]
            rw [List.take_append_eq_append_take]
            have h0 : (limit - (out.length : ℤ)).toNat - (headsB bs).length = 0 := by omega
            rw [h0]
            simp
          · have hnb := popRound_noBreak limit bs out (by omega)
            rw [rrLoop_go limit bs out hlt, hnb]
            have hpe : (!(headsB bs).isEmpty) = true := by
              cases hcc : headsB bs with
              | nil => exact absurd hcc hhe
              | cons x xs => simp
            rw [if_pos hpe]
            dsimp only
            have hsz2 : bucketsSize (tailsB bs) ≤ n := by
              have := tailsB_size_lt bs hhe
              omega
            rw [ih (tailsB bs) (out ++ headsB bs) hsz2 (by
              simp only [List.length_append]
              push_cast
              omega)]
            rw [hstep, List.take_append_eq_append_take]
            have htk : (headsB bs).take (limit - (out.length : ℤ)).toNat = headsB bs := by
              apply List.take_of_length_le
              omega
            rw [htk]
            have harith : ((limit - ((out ++ headsB bs).length : ℤ))).toNat
                = (limit - (out.length : ℤ)).toNat - (headsB bs).length := by
              simp only [List.length_append]
              push_cast
              omega
            rw [harith]
            simp [List.append_assoc]
      · rw [rrLoop_stop limit bs out hlt]
        have h0 : (limit - (out.length : ℤ)).toNat = 0 := by omega
        rw [h0]
        simp



/-- First-seen order of the distinct source ids of `items` (the `order`
list built by the bucket loop). -/
def sourcesInOrder (items : List Article) : List String :=
  items.foldl (fun acc it => if it.source ∈ acc then acc else acc ++ [it.source]) []

/-- Spec-side buckets: per-source candidate lists, internal order
preserved, in source-first-seen order. -/
def specBuckets (items : List Article) : List (List Article) :=
  (sourcesInOrder items).map (fun s => items.filter (fun a => a.source == s))

theorem sourcesInOrder_append (p : List Article) (a : Article) :
    sourcesInOrder (p ++ [a])
      = if a.source ∈ sourcesInOrder p then sourcesInOrder p
        else sourcesInOrder p ++ [a.source] := by
  unfold sourcesInOrder
  rw [List.foldl_append]
  rfl

theorem mem_sourcesInOrder (s : String) :
    ∀ (p : List Article), s ∈ sourcesInOrder p ↔ ∃ x ∈ p, x.source = s := by
  intro p
  induction p using List.reverseRecOn with
  | nil => simp [sourcesInOrder]
  | append_singleton p a ih =>
      rw [sourcesInOrder_append]
      by_cases hm : a.source ∈ sourcesInOrder p
      · rw [if_pos hm, ih]
        simp only [List.mem_append, List.mem_singleton]
        constructor
        · rintro ⟨x, hx, hxs⟩
          exact ⟨x, Or.inl hx, hxs⟩
        · rintro ⟨x, hx | hx, hxs⟩
          · exact ⟨x, hx, hxs⟩
          · subst hx
            obtain ⟨y, hy, hys⟩ := ih.mp (hxs ▸ hm)
            exact ⟨y, hy, hys⟩
      · rw [if_neg hm]
        simp only [List.mem_append, List.mem_singleton, ih]
        constructor
        · rintro (⟨x, hx, hxs⟩ | h)
          · exact ⟨x, Or.inl hx, hxs⟩
          · subst h
            exact ⟨a, Or.inr rfl, rfl⟩
        · rintro ⟨x, hx | hx, hxs⟩
          · exact Or.inl ⟨x, hx, hxs⟩
          · subst hx
            exact Or.inr hxs.symm

theorem nodup_sourcesInOrder : ∀ (p : List Article), (sourcesInOrder p).Nodup := by
  intro p
  induction p using List.reverseRecOn with
  | nil => simp [sourcesInOrder]
  | append_singleton p a ih =>
      rw [sourcesInOrder_append]
      by_cases hm : a.source ∈ sourcesInOrder p
      · rw [if_pos hm]; exact ih
      · rw [if_neg hm]
        simp [List.nodup_append, ih, hm]

theorem filter_single (q : Article → Bool) (a : Article) :
    [a].filter q = if q a = true then [a] else [] := by
  simp [List.filter_cons]

theorem addToBuckets_mem (sid : String) (a : Article) (f : String → List Article) :
    ∀ (srcs : List String), srcs.Nodup → sid ∈ srcs →
    addToBuckets (srcs.map (fun s => (s, f s))) sid a
      = srcs.map (fun s => (s, f s ++ if s = sid then [a] else [])) := by
  intro srcs
  induction srcs with
  | nil => intro _ h; cases h
  | cons s0 rest ih =>
      intro hnd hmem
      simp only [List.map_cons, addToBuckets]
      by_cases h0 : s0 = sid
      · rw [if_pos h0, if_pos h0]
        congr 1
        have hnot : sid ∉ rest := by
          rw [← h0]
          exact (List.nodup_cons.mp hnd).1
        apply List.map_congr_left
        intro x hx
        have : ¬ x = sid := fun hxx => hnot (hxx ▸ hx)
        rw [if_neg this]
        simp
      · rw [if_neg h0, if_neg h0]
        have hmem2 : sid ∈ rest := by
          rcases List.mem_cons.mp hmem with h | h
          · exact absurd h.symm h0
          · exact h
        rw [ih (List.nodup_cons.mp hnd).2 hmem2]
        simp

theorem addToBuckets_notMem (sid : String) (a : Article) (f : String → List Article) :
    ∀ (srcs : List String), sid ∉ srcs →
    addToBuckets (srcs.map (fun s => (s, f s))) sid a
      = srcs.map (fun s => (s, f s)) ++ [(sid, [a])] := by
  intro srcs
  induction srcs with
  | nil => intro _; rfl
  | cons s0 rest ih =>
      intro hmem
      simp only [List.map_cons, addToBuckets]
      have h0 : ¬ s0 = sid := fun h => hmem (h ▸ List.mem_cons_self s0 rest)
      rw [if_neg h0, ih (fun h => hmem (List.mem_cons_of_mem s0 h))]
      simp

theorem buildBuckets_canonical : ∀ (items : List Article),
    buildBuckets items
      = (sourcesInOrder items).map
          (fun s => (s, items.filter (fun a => a.source == s))) := by
  intro items
  induction items using List.reverseRecOn with
  | nil => rfl
  | append_singleton p a ih =>
      have hstep : buildBuckets (p ++ [a]) = addToBuckets (buildBuckets p) a.source a := by
        unfold buildBuckets
        rw [List.foldl_append]
        rfl
      rw [hstep, ih, sourcesInOrder_append]
      by_cases hm : a.source ∈ sourcesInOrder p
      · rw [if_pos hm]
        rw [addToBuckets_mem a.source a _ _ (nodup_sourcesInOrder p) hm]
        apply List.map_congr_left
        intro s hs
        rw [List.filter_append, filter_single]
        congr 2
        by_cases hsa : s = a.source
        · rw [if_pos hsa, if_pos (by simp [hsa])]
        · rw [if_neg hsa, if_neg (by
            simp only [beq_iff_eq]
            exact fun h => hsa h.symm)]
      · rw [if_neg hm]
        rw [addToBuckets_notMem a.source a _ _ hm]
        rw [List.map_append]
        congr 1
        · apply List.map_congr_left
          intro s hs
          rw [List.filter_append, filter_single]
          have hsa : ¬ (a.source == s) = true := by
            simp only [beq_iff_eq]
            intro h
            exact hm (h ▸ hs)
          rw [if_neg hsa]
          simp
        · simp only [List.map_cons, List.map_nil]
          rw [List.filter_append, filter_single]
          have hnil : p.filter (fun x => x.source == a.source) = [] := by
            rw [List.filter_eq_nil_iff]
            intro x hx
            simp only [beq_iff_eq]
            intro h
            exact hm ((mem_sourcesInOrder a.source p).mpr ⟨x, hx, h⟩)
          rw [hnil, if_pos (by simp)]
          simp

theorem specBuckets_eq_code (items : List Article) :
    (buildBuckets items).map Prod.snd = specBuckets items := by
  rw [buildBuckets_canonical, List.map_map]
  rfl

end RoundRobin

/-- Spec-side fair capping: group by source in first-seen order keeping
internal order, then take the first `limit` entries of the round-robin
flattening. -/
def roundRobinSpec (items : List Article) (limit : ℤ) : List Article :=
  if limit ≤ 0 then []
  else (RoundRobin.rrAll (RoundRobin.specBuckets items)).take limit.toNat

/-- An article of the prolific example source. -/
def exA (i : ℕ) : Article :=
  { source := "sourceA", title := "", url := "https://a.example/" ++ toString i }

/-- The single article of the second example source. -/
def exB : Article := { source := "sourceB", title := "", url := "https://b.example/1" }

/-- The single article of the third example source. -/
def exC : Article := { source := "sourceC", title := "", url := "https://c.example/1" }

/-- Merged candidates: sources contributing 10, 1 and 1 candidates. -/
def exTenOneOne : List Article := (List.range 10).map exA ++ [exB, exC]

/-- The code function and the spec-side fair capping agree for every
input (also when the cap is non-positive, where both give `[]`). -/
theorem roundRobin_code_eq_spec (items : List Article) (limit : ℤ) :
    _round_robin_by_source items limit = roundRobinSpec items limit := by
  unfold _round_robin_by_source roundRobinSpec
  by_cases hl : limit ≤ 0
  · simp [hl]
  · simp only [hl, if_false]
    rw [RoundRobin.rrLoop_eq_rrAll limit
      (RoundRobin.bucketsSize (RoundRobin.buildBuckets items))
      (RoundRobin.buildBuckets items) [] le_rfl (by simp; omega)]
    rw [RoundRobin.specBuckets_eq_code]
    simp

/-- C4: for every merged candidate list and every positive cap,
`_round_robin_by_source` equals the spec-side fair capping: group the
candidates into per-source buckets that preserve each bucket's internal
order, in source-first-seen order, then round-robin pop one candidate
from each non-empty bucket round after round (`rrAll`) and truncate at
the cap; in particular three sources contributing 10, 1 and 1
candidates, capped to 3, yield exactly one candidate from each
source. -/
theorem round_robin_fair_capping :
    (∀ (items : List Article) (limit : ℤ),
      _round_robin_by_source items limit = roundRobinSpec items limit) ∧
    _round_robin_by_source exTenOneOne 3 = [exA 0, exB, exC] := by
  refine ⟨roundRobin_code_eq_spec, ?_⟩
  have hb : RoundRobin.buildBuckets exTenOneOne
      = [("sourceA", (List.range 10).map exA), ("sourceB", [exB]), ("sourceC", [exC])] := by
    decide
  have hpop1 : (RoundRobin.popRound 3
      [("sourceA", (List.range 10).map exA), ("sourceB", [exB]), ("sourceC", [exC])]
      []).2.1 = [exA 0, exB, exC] := by decide
  have hpop2 : (RoundRobin.popRound 3
      [("sourceA", (List.range 10).map exA), ("sourceB", [exB]), ("sourceC", [exC])]
      []).2.2 = true := by decide
  unfold _round_robin_by_source
  rw [if_neg (by decide)]
  rw [RoundRobin.rrLoop_go 3 _ [] (by decide), hb, if_pos hpop2, hpop1]
  rw [RoundRobin.rrLoop_stop 3 _ _ (by decide)]

namespace RoundRobin

theorem heads_tails_accounting : ∀ (ls : List (List Article)),
    ((ls.map List.tail).map List.length).sum + (ls.filterMap List.head?).length
      = (ls.map List.length).sum := by
  intro ls
  induction ls with
  | nil => rfl
  | cons l rest ih =>
      cases l with
      | nil =>
          simp only [List.map_cons, List.sum_cons, List.filterMap_cons, List.head?, List.tail]
          omega
      | cons x t =>
          simp only [List.map_cons, List.sum_cons, List.filterMap_cons, List.head?, List.tail,
            List.length_cons]
          omega

theorem all_nil_of_heads_nil (ls : List (List Article))
    (h : ls.filterMap List.head? = []) : ∀ l ∈ ls, l = [] := by
  intro l hl
  rw [List.filterMap_eq_nil] at h
  have := h l hl
  cases l with
  | nil => rfl
  | cons x t => simp [List.head?] at this

theorem rrAll_length : ∀ (n : ℕ) (ls : List (List Article)),
    (ls.map List.length).sum ≤ n → (rrAll ls).length = (ls.map List.length).sum := by
  intro n
  induction n with
  | zero =>
      intro ls h
      have hz : (ls.map List.length).sum = 0 := by omega
      have hh : ls.filterMap List.head? = [] := by
        have := heads_tails_accounting ls
        rw [hz] at this
        have hlen : (ls.filterMap List.head?).length = 0 := by omega
        exact List.length_eq_zero.mp hlen
      rw [rrAll_empty ls hh, hz]
      rfl
  | succ n ih =>
      intro ls h
      by_cases hh : ls.filterMap List.head? = []
      · have hz : (ls.map List.length).sum = 0 := by
          have hall := all_nil_of_heads_nil ls hh
          have : ls.map List.length = ls.map (fun _ => 0) := by
            apply List.map_congr_left
            intro l hl
            rw [hall l hl]
            rfl
          rw [this]
          simp
        rw [rrAll_empty ls hh, hz]
        rfl
      · rw [rrAll_step ls hh]
        rw [List.length_append]
        have hlt := tails_sum_lt ls hh
        rw [ih (ls.map List.tail) (by omega)]
        have := heads_tails_accounting ls
        omega

end RoundRobin

/-- The output length of the fair cap: exactly the cap whenever at least
`c` candidates are available and `c` is positive. -/
theorem roundRobin_length_of_le (items : List Article) (c : ℤ) (hc : 0 < c)
    (hle : c ≤ (items.length : ℤ)) :
    ((_round_robin_by_source items c).length : ℤ) = c := by
  rw [roundRobin_code_eq_spec]
  unfold roundRobinSpec
  rw [if_neg (by omega)]
  rw [List.length_take]
  rw [RoundRobin.rrAll_length ((RoundRobin.specBuckets items).map List.length).sum _ le_rfl]
  have hsum : ((RoundRobin.specBuckets items).map List.length).sum = items.length := by
    rw [← RoundRobin.specBuckets_eq_code]
    rw [← RoundRobin.bucketsSize_eq]
    clear hle hc
    induction items using List.reverseRecOn with
    | nil => rfl
    | append_singleton p a ih =>
        have hstep : RoundRobin.buildBuckets (p ++ [a])
            = RoundRobin.addToBuckets (RoundRobin.buildBuckets p) a.source a := by
          unfold RoundRobin.buildBuckets
          rw [List.foldl_append]
          rfl
        rw [hstep]
        have hadd : ∀ (bs : List (String × List Article)) (sid : String) (x : Article),
            RoundRobin.bucketsSize (RoundRobin.addToBuckets bs sid x)
              = RoundRobin.bucketsSize bs + 1 := by
          intro bs
          induction bs with
          | nil => intro sid x; rfl
          | cons hd rest ih2 =>
              intro sid x
              obtain ⟨s0, l0⟩ := hd
              simp only [RoundRobin.addToBuckets]
              by_cases h0 : s0 = sid
              · rw [if_pos h0]
                simp [RoundRobin.bucketsSize]
                omega
              · rw [if_neg h0]
                simp only [RoundRobin.bucketsSize, List.map_cons, List.sum_cons]
                have := ih2 sid x
                simp only [RoundRobin.bucketsSize] at this
                omega
        rw [hadd, ih]
        simp
  rw [hsum]
  omega

/-! ### Candidate merge, hard cap and skip filter (`run_pipeline`)

The candidate-selection fragment of `run_pipeline`: interleave the
RSS-derived (already URL-deduplicated and skip-filtered) stubs with the
discovery-derived stubs, de-duplicate by URL, apply the hard cap by fair
round-robin selection, and only then drop `skip_urls`. -/

namespace Pipeline

/-- The nested `_interleave` helper: alternate one element from each
stream per iteration, appending the leftover tail. -/
def _interleave : List Article → List Article → List Article
  | [], b => b
  | a :: as, [] => a :: as
  | a :: as, b :: bs => a :: b :: _interleave as bs

/-- The merge loop: drop empty URLs and URLs already seen (`seen2`). -/
def dedupByUrl (seen : List String) : List Article → List Article
  | [] => []
  | a :: rest =>
      if a.url = "" then dedupByUrl seen rest
      else if a.url ∈ seen then dedupByUrl seen rest
      else a :: dedupByUrl (a.url :: seen) rest

/-- Interleaved merge of RSS and discovered candidates, de-duplicated by
URL (first occurrence wins). -/
def mergedCandidates (uniq disc : List Article) : List Article :=
  dedupByUrl [] (_interleave uniq disc)

/-- `hard_cap`: `max_articles_per_run` when positive, intersected with
`max_items` when positive; `none` when neither cap applies. -/
def hardCapOf (max_articles_per_run max_items : ℤ) : Option ℤ :=
  let hc : Option ℤ :=
    if 0 < max_articles_per_run then some max_articles_per_run else none
  if 0 < max_items then
    some (match hc with
          | none => max_items
          | some c => min c max_items)
  else hc

/-- `if hard_cap is not None and len(merged) > hard_cap: merged = _round_robin_by_source(...)`. -/
def applyCap (merged : List Article) (max_articles_per_run max_items : ℤ) : List Article :=
  match hardCapOf max_articles_per_run max_items with
  | some c => if c < (merged.length : ℤ) then _round_robin_by_source merged c else merged
  | none => merged

/-- The stage-2/3 selection of `run_pipeline`: merge, cap, then remove
`skip_urls` (`if skip_urls:` skips the filter on an empty set). -/
def mergeCapSkip (uniq disc : List Article) (max_articles_per_run max_items : ℤ)
    (skip_urls : List String) : List Article :=
  let capped := applyCap (mergedCandidates uniq disc) max_articles_per_run max_items
  if skip_urls = [] then capped
  else capped.filter (fun a => decide (a.url ∉ skip_urls))

theorem hardCapOf_pos (mapr mi c : ℤ) (h : hardCapOf mapr mi = some c) : 0 < c := by
  unfold hardCapOf at h
  by_cases h1 : 0 < mapr
  · by_cases h2 : 0 < mi
    · simp only [h1, if_true, h2] at h
      have : min mapr mi = c := by
        simpa using h
      have := min_le_left mapr mi
      have := min_le_right mapr mi
      have hminpos : 0 < min mapr mi := lt_min h1 h2
      omega
    · simp only [h1, if_true, h2, if_false] at h
      have : mapr = c := by simpa using h
      omega
  · by_cases h2 : 0 < mi
    · simp only [h1, if_false, h2, if_true] at h
      have : mi = c := by simpa using h
      omega
    · simp only [h1, if_false, h2] at h
      simp at h

end Pipeline

/-- A candidate whose URL the caller has already seen. -/
def exU : Article := { source := "s", title := "", url := "https://u.example/a" }

/-- A fresh candidate from the same source. -/
def exV : Article := { source := "s", title := "", url := "https://u.example/b" }

theorem rr_exU_exV : _round_robin_by_source [exU, exV] 1 = [exU] := by
  unfold _round_robin_by_source
  rw [if_neg (by decide)]
  rw [RoundRobin.rrLoop_go 1 _ [] (by decide)]
  rw [show RoundRobin.buildBuckets [exU, exV] = [("s", [exU, exV])] from by decide]
  rw [if_pos (by decide)]
  rw [show (RoundRobin.popRound 1 [("s", [exU, exV])] []).2.1 = [exU] from by decide]
  exact RoundRobin.rrLoop_stop 1 _ _ (by decide)

/-- Counterexample to C5: with one RSS candidate `exU` (whose URL is in
`skip_urls`), one discovered candidate `exV`, `max_articles_per_run = 1`
and `max_items = 0`, the merged skip-filtered count is 1 = hardCap, yet
no candidate proceeds to scraping: the code caps first (selecting the
skipped `exU`) and filters `skip_urls` afterwards. -/
theorem mergeCapSkip_counterexample :
    Pipeline.hardCapOf 1 0 = some 1 ∧
    ((Pipeline.mergedCandidates [exU] [exV]).filter
        (fun a => decide (a.url ∉ ["https://u.example/a"]))).length = 1 ∧
    Pipeline.mergeCapSkip [exU] [exV] 1 0 ["https://u.example/a"] = [] := by
  refine ⟨by decide, by decide, ?_⟩
  have hcap : Pipeline.applyCap (Pipeline.mergedCandidates [exU] [exV]) 1 0 = [exU] := by
    unfold Pipeline.applyCap
    rw [show Pipeline.hardCapOf 1 0 = some 1 from by decide]
    rw [show Pipeline.mergedCandidates [exU] [exV] = [exU, exV] from by decide]
    dsimp only
    rw [if_pos (by decide)]
    exact rr_exU_exV
  unfold Pipeline.mergeCapSkip
  rw [hcap]
  dsimp only
  rw [if_neg (by decide)]
  decide

/-- C5 (amended): in `run_pipeline` the removal of `skip_urls` from the
interleaved, URL-deduplicated merged candidate list happens after the
stage-3 fair cap, not before it; consequently at most `hardCap`
candidates proceed to the scraping stage, and exactly `hardCap` proceed
whenever the merged candidate count is at least `hardCap` and none of
the capped selection is in `skip_urls` (in particular whenever
`skip_urls` is empty). -/
theorem mergeCapSkip_caps_before_skip (uniq disc : List Article)
    (mapr mi : ℤ) (skip : List String) (c : ℤ)
    (hc : Pipeline.hardCapOf mapr mi = some c) :
    Pipeline.mergeCapSkip uniq disc mapr mi skip
      = (Pipeline.applyCap (Pipeline.mergedCandidates uniq disc) mapr mi).filter
          (fun a => decide (a.url ∉ skip)) ∧
    ((Pipeline.mergeCapSkip uniq disc mapr mi skip).length : ℤ) ≤ c ∧
    (c ≤ ((Pipeline.mergedCandidates uniq disc).length : ℤ) →
      (∀ a ∈ Pipeline.applyCap (Pipeline.mergedCandidates uniq disc) mapr mi,
        a.url ∉ skip) →
      ((Pipeline.mergeCapSkip uniq disc mapr mi skip).length : ℤ) = c) := by
  have hcpos : 0 < c := Pipeline.hardCapOf_pos mapr mi c hc
  set merged := Pipeline.mergedCandidates uniq disc with hmerged
  have heq : Pipeline.mergeCapSkip uniq disc mapr mi skip
      = (Pipeline.applyCap merged mapr mi).filter (fun a => decide (a.url ∉ skip)) := by
    unfold Pipeline.mergeCapSkip
    rw [← hmerged]
    by_cases hsk : skip = []
    · rw [if_pos hsk]
      subst hsk
      rw [List.filter_eq_self.mpr]
      intro a _
      simp
    · rw [if_neg hsk]
  have hcaplen : ((Pipeline.applyCap merged mapr mi).length : ℤ) ≤ c := by
    unfold Pipeline.applyCap
    rw [hc]
    dsimp only
    by_cases hlt : c < (merged.length : ℤ)
    · rw [if_pos hlt]
      rw [roundRobin_length_of_le merged c hcpos (le_of_lt hlt)]
    · rw [if_neg hlt]
      omega
  refine ⟨heq, ?_, ?_⟩
  · rw [heq]
    have := List.length_filter_le (fun a => decide (a.url ∉ skip))
      (Pipeline.applyCap merged mapr mi)
    omega
  · intro hcm hall
    rw [heq, List.filter_eq_self.mpr]
    · unfold Pipeline.applyCap
      rw [hc]
      dsimp only
      by_cases hlt : c < (merged.length : ℤ)
      · rw [if_pos hlt]
        exact roundRobin_length_of_le merged c hcpos (le_of_lt hlt)
      · rw [if_neg hlt]
        omega
    · intro a ha
      simp only [decide_eq_true_eq]
      exact hall a ha

/-- Witness for the amended C5: with candidates `exU`, `exV`, hard cap 1
and no skipped URLs, exactly one candidate proceeds. -/
theorem mergeCapSkip_caps_before_skip_witness :
    ((Pipeline.mergeCapSkip [exU] [exV] 1 0 []).length : ℤ) = 1 :=
  (mergeCapSkip_caps_before_skip [exU] [exV] 1 0 [] 1 (by decide)).2.2
    (by decide)
    (by intro a _ h; cases h)

/-! ### TF-IDF vectorizer (`vectorize.py`)

Tokenization follows `re.findall` of `[A-Za-z][A-Za-z0-9_\\-]{1,}`:
leftmost non-overlapping maximal matches, an ASCII letter followed by at
least one word character, lowercased.  Term weights are real numbers
(exact arithmetic in place of IEEE floats). -/

/-- ASCII letter (the `[A-Za-z]` class). -/
def pyIsAlpha (c : Char) : Bool :=
  (65 ≤ c.toNat && c.toNat ≤ 90) || (97 ≤ c.toNat && c.toNat ≤ 122)

/-- The `[A-Za-z0-9_\\-]` class. -/
def pyIsWordChar (c : Char) : Bool :=
  pyIsAlpha c || (48 ≤ c.toNat && c.toNat ≤ 57) || c == '_' || c == '-'

/-- ASCII lowercasing (`str.lower` on the matched word characters). -/
def toLowerAscii (c : Char) : Char :=
  if 65 ≤ c.toNat && c.toNat ≤ 90 then Char.ofNat (c.toNat + 32) else c

/-- The scan of `_WORD_RE.findall` as a one-pass state machine: outside
a match, only an ASCII letter can open one; inside a match, word
characters extend it greedily; on a non-word character (which can never
itself open a match) the run is emitted when it has the required two or
more characters, else discarded.  This yields exactly the leftmost
non-overlapping maximal matches of the regex. -/
def tokenizeAux : Option (List Char) → List Char → List String
  | none, [] => []
  | some acc, [] => if 2 ≤ acc.length then [String.mk (acc.map toLowerAscii)] else []
  | none, c :: rest =>
      if pyIsAlpha c then tokenizeAux (some [c]) rest else tokenizeAux none rest
  | some acc, c :: rest =>
      if pyIsWordChar c then tokenizeAux (some (acc ++ [c])) rest
      else if 2 ≤ acc.length then
        String.mk (acc.map toLowerAscii) :: tokenizeAux none rest
      else tokenizeAux none rest

/-- `_tokenize`. -/
def _tokenize (text : String) : List String := tokenizeAux none text.toList

/-- `_ngrams`: unigrams pass through; an `n`-gram is the space-join of a
window of `n` consecutive tokens, for each `n` in `[lo, hi]`. -/
def _ngrams (tokens : List String) (lo hi : ℕ) : List String :=
  (List.range' lo (hi + 1 - lo)).flatMap (fun n =>
    if n = 1 then tokens
    else (List.range (tokens.length + 1 - n)).map
      (fun i => String.intercalate " " ((tokens.drop i).take n)))

/-- One `Counter` increment (first matching key is bumped, new keys go
to the end, mirroring dict insertion order). -/
def counterAdd : List (String × ℕ) → String → List (String × ℕ)
  | [], k => [(k, 1)]
  | (t, n) :: rest, k =>
      if t = k then (t, n + 1) :: rest else (t, n) :: counterAdd rest k

/-- A duplicate-free copy of `l` keeping first occurrences (the
`set(tokens)` of the fit loop, in a canonical order). -/
def uniqueKeep (l : List String) : List String :=
  l.foldl (fun acc t => if t ∈ acc then acc else acc ++ [t]) []

/-- Count lookup in an association-list counter (0 when absent). -/
def dfLookup (c : List (String × ℕ)) (k : String) : ℕ :=
  match c.find? (fun p => p.1 == k) with
  | some p => p.2
  | none => 0

/-- Document frequencies: one `Counter.update` with the distinct
n-grams of each document. -/
def dfCounter (texts : List String) (lo hi : ℕ) : List (String × ℕ) :=
  texts.foldl
    (fun c text => (uniqueKeep (_ngrams (_tokenize text) lo hi)).foldl counterAdd c) []

/-- Code-point lexicographic comparison of character lists (Python
string `<=`). -/
def strLeGo : List Char → List Char → Bool
  | [], _ => true
  | _ :: _, [] => false
  | c :: cs, d :: ds =>
      if c.toNat < d.toNat then true
      else if d.toNat < c.toNat then false
      else strLeGo cs ds

/-- Python string `<=` (code-point lexicographic). -/
def strLe (a b : String) : Bool := strLeGo a.toList b.toList

/-- The sort key `(-count, term)`: higher count first, ties broken by
lexicographically smaller term. -/
def keyLe (a b : String × ℕ) : Bool :=
  decide (b.2 < a.2) || (a.2 == b.2 && strLe a.1 b.1)

/-- The ranked term list of `fit_tfidf`: document-frequency pairs,
filtered by `min_df`, sorted by the `(-count, term)` key. -/
def fitItems (texts : List String) (lo hi min_df : ℕ) : List (String × ℕ) :=
  ((dfCounter texts lo hi).filter (fun p => decide (min_df ≤ p.2))).mergeSort keyLe

/-- Mirror of the `TfidfModel` dataclass: `vocab` as the ordered key
list (term at index `i` has column `i`), per-column smoothed idf. -/
structure TfidfModel where
  vocab : List String
  idf : List ℝ

/-- `fit_tfidf`: rank terms, keep the top `max_features`, assign column
indices in rank order, smoothed idf `ln((1+N)/(1+df)) + 1` with
`N = max(1, len(texts))`. -/
noncomputable def fit_tfidf (texts : List String) (max_features lo hi min_df : ℕ) :
    TfidfModel :=
  { vocab := ((fitItems texts lo hi min_df).take max_features).map Prod.fst
    idf := ((fitItems texts lo hi min_df).take max_features).map (fun p =>
      Real.log ((1 + (max 1 texts.length : ℕ)) / (1 + (p.2 : ℝ))) + 1) }

/-- One raw (pre-normalization) row of `transform_tfidf`: term
frequency of each vocabulary term times its idf. -/
noncomputable def rawRow (model : TfidfModel) (lo hi : ℕ) (text : String) : List ℝ :=
  (model.vocab.zip model.idf).map
    (fun p => ((_ngrams (_tokenize text) lo hi).count p.1 : ℝ) * p.2)

/-- Euclidean row norm (`np.linalg.norm`). -/
noncomputable def l2norm (v : List ℝ) : ℝ := Real.sqrt ((v.map (fun x => x ^ 2)).sum)

open Classical in
/-- Row normalization with the `norms[norms == 0] = 1` guard. -/
noncomputable def normalizeRow (v : List ℝ) : List ℝ :=
  v.map (fun x => x / (if l2norm v = 0 then 1 else l2norm v))

/-- `transform_tfidf`: raw tf-idf rows, L2-normalized. -/
noncomputable def transform_tfidf (texts : List String) (model : TfidfModel)
    (lo hi : ℕ) : List (List ℝ) :=
  texts.map (fun t => normalizeRow (rawRow model lo hi t))

/-! ### Dedup engine (`dedup.py`) -/

/-- Mirror of the `DedupResult` dataclass. -/
structure DedupResult where
  is_duplicate : Bool
  duplicate_of_url : Option String
  best_similarity : ℝ

/-- Dot product of two rows (`X[1:] @ X[0]`, entrywise). -/
noncomputable def dotR (u v : List ℝ) : ℝ := (List.zipWith (fun a b => a * b) u v).sum

/-- The similarity vector `sims`: candidate at row 0, dot products of
every recent row against it (cosine, rows being L2-normalized). -/
noncomputable def dedupSims (candidate_text : String) (recent_texts : List String) :
    List ℝ :=
  let texts := candidate_text :: recent_texts
  let X := transform_tfidf texts (fit_tfidf texts 8000 1 2 2) 1 2
  (X.drop 1).map (fun row => dotR row X.headI)

open Classical in
/-- `np.argmax`: the first index attaining the maximum (0 on an empty
vector). -/
noncomputable def argmaxR (l : List ℝ) : ℕ :=
  l.findIdx (fun x => decide (∀ y ∈ l, y ≤ x))

open Classical in
/-- `dedup_against_recent`: empty candidate or empty window short-cut,
then threshold (inclusive) on the best similarity; `none` models a
Python `IndexError` on `recent_urls[best_idx]`. -/
noncomputable def dedup_against_recent (candidate_text candidate_url : String)
    (recent_texts recent_urls : List String) (threshold : ℝ) : Option DedupResult :=
  if candidate_text = "" ∨ recent_texts = [] then
    some { is_duplicate := false, duplicate_of_url := none, best_similarity := 0 }
  else
    let sims := dedupSims candidate_text recent_texts
    if sims = [] then
      some { is_duplicate := false, duplicate_of_url := none, best_similarity := 0 }
    else
      let best_sim := sims.getD (argmaxR sims) 0
      if threshold ≤ best_sim then
        (recent_urls.get? (argmaxR sims)).map
          (fun u => { is_duplicate := true, duplicate_of_url := some u,
                      best_similarity := best_sim })
      else some { is_duplicate := false, duplicate_of_url := none,
                  best_similarity := best_sim }

theorem exists_max_mem (l : List ℝ) (h : l ≠ []) : ∃ x ∈ l, ∀ y ∈ l, y ≤ x := by
  induction l with
  | nil => exact absurd rfl h
  | cons a t ih =>
      cases t with
      | nil => exact ⟨a, by simp, by simp⟩
      | cons b u =>
          obtain ⟨x, hx, hmax⟩ := ih (by simp)
          by_cases hax : a ≤ x
          · exact ⟨x, by simp [hx], by
              intro y hy
              rcases List.mem_cons.mp hy with rfl | hy2
              · exact hax
              · exact hmax y hy2⟩
          · exact ⟨a, by simp, by
              intro y hy
              rcases List.mem_cons.mp hy with rfl | hy2
              · exact le_rfl
              · exact le_trans (hmax y hy2) (le_of_not_le hax)⟩

theorem argmaxR_lt_length (l : List ℝ) (h : l ≠ []) : argmaxR l < l.length := by
  classical
  obtain ⟨x, hx, hmax⟩ := exists_max_mem l h
  exact List.findIdx_lt_length_of_exists ⟨x, hx, by simpa using hmax⟩

theorem argmaxR_is_max (l : List ℝ) (h : l ≠ []) :
    ∀ y ∈ l, y ≤ l.getD (argmaxR l) 0 := by
  classical
  have hlt := argmaxR_lt_length l h
  rw [List.getD_eq_getElem l 0 hlt]
  have hp := @List.findIdx_getElem ℝ (fun x => decide (∀ y ∈ l, y ≤ x)) l hlt
  simp only [decide_eq_true_eq] at hp
  exact hp

theorem dedupSims_length (ct : String) (rts : List String) :
    (dedupSims ct rts).length = rts.length := by
  unfold dedupSims
  simp [transform_tfidf]

/-- C10: with `recent_texts` and `recent_urls` of equal length the
argmax index over the similarity vector is in bounds for `recent_urls`,
and `dedup_against_recent` totally returns a `DedupResult` (the
embedding returns `none` exactly when the Python lookup would raise). -/
theorem dedup_total_inbounds (ct cu : String) (rts rus : List String) (θ : ℝ)
    (hlen : rts.length = rus.length) :
    (dedup_against_recent ct cu rts rus θ).isSome = true ∧
    (ct ≠ "" → rts ≠ [] → argmaxR (dedupSims ct rts) < rus.length) := by
  classical
  have hbound : ct ≠ "" → rts ≠ [] → argmaxR (dedupSims ct rts) < rus.length := by
    intro hct hrts
    have hne : dedupSims ct rts ≠ [] := by
      intro hnil
      have := dedupSims_length ct rts
      rw [hnil] at this
      exact hrts (List.length_eq_zero.mp this.symm)
    have := argmaxR_lt_length (dedupSims ct rts) hne
    rw [dedupSims_length ct rts, hlen] at this
    exact this
  refine ⟨?_, hbound⟩
  unfold dedup_against_recent
  by_cases h1 : ct = "" ∨ rts = []
  · rw [if_pos h1]
    rfl
  · rw [if_neg h1]
    push_neg at h1
    obtain ⟨hct, hrts⟩ := h1
    have hne : dedupSims ct rts ≠ [] := by
      intro hnil
      have := dedupSims_length ct rts
      rw [hnil] at this
      exact hrts (List.length_eq_zero.mp this.symm)
    rw [if_neg hne]
    dsimp only
    by_cases hth : θ ≤ (dedupSims ct rts).getD (argmaxR (dedupSims ct rts)) 0
    · rw [if_pos hth]
      have hlt2 := hbound hct hrts
      have hu : rus.get? (argmaxR (dedupSims ct rts))
          = some (rus.get ⟨argmaxR (dedupSims ct rts), hlt2⟩) :=
        List.get?_eq_some.mpr ⟨hlt2, rfl⟩
      rw [hu]
      rfl
    · rw [if_neg hth]
      rfl

/-- Witness for C10: a concrete equal-length call returns a result. -/
theorem dedup_total_inbounds_witness :
    (dedup_against_recent "alpha beta" "cu" ["gamma delta"] ["https://r.example/1"]
      (1/2)).isSome = true :=
  (dedup_total_inbounds "alpha beta" "cu" ["gamma delta"] ["https://r.example/1"]
    (1/2) rfl).1

/-- C3: `dedup_against_recent` returns not-duplicate with no URL and
similarity 0 whenever the candidate text or the recent window is empty;
otherwise, with `bestIdx` the first index maximizing the cosine
similarity of the candidate row against the recent rows, it returns
duplicate-of `recent_urls[bestIdx]` exactly when the best similarity
reaches the threshold (inclusive), and not-duplicate with no URL
otherwise, reporting the best similarity either way. -/
theorem dedup_verdict_structure (ct cu : String) (rts rus : List String) (θ : ℝ) :
    ((ct = "" ∨ rts = []) →
      dedup_against_recent ct cu rts rus θ
        = some { is_duplicate := false, duplicate_of_url := none,
                 best_similarity := 0 }) ∧
    (ct ≠ "" → rts ≠ [] →
      (∀ j, j < (dedupSims ct rts).length →
        (dedupSims ct rts).getD j 0
          ≤ (dedupSims ct rts).getD (argmaxR (dedupSims ct rts)) 0) ∧
      (θ ≤ (dedupSims ct rts).getD (argmaxR (dedupSims ct rts)) 0 →
        dedup_against_recent ct cu rts rus θ
          = (rus.get? (argmaxR (dedupSims ct rts))).map
              (fun u => (⟨true, some u,
                (dedupSims ct rts).getD (argmaxR (dedupSims ct rts)) 0⟩ : DedupResult))) ∧
      (¬ θ ≤ (dedupSims ct rts).getD (argmaxR (dedupSims ct rts)) 0 →
        dedup_against_recent ct cu rts rus θ
          = some (⟨false, none,
              (dedupSims ct rts).getD (argmaxR (dedupSims ct rts)) 0⟩ : DedupResult))) := by
  classical
  constructor
  · intro h1
    unfold dedup_against_recent
    rw [if_pos h1]
  · intro hct hrts
    have hne : dedupSims ct rts ≠ [] := by
      intro hnil
      have := dedupSims_length ct rts
      rw [hnil] at this
      exact hrts (List.length_eq_zero.mp this.symm)
    refine ⟨?_, ?_, ?_⟩
    · intro j hj
      rw [List.getD_eq_getElem _ 0 hj]
      exact argmaxR_is_max (dedupSims ct rts) hne _ (List.getElem_mem hj)
    · intro hth
      unfold dedup_against_recent
      rw [if_neg (by
        rintro (h | h)
        · exact hct h
        · exact hrts h)]
      rw [if_neg hne]
      dsimp only
      rw [if_pos hth]
    · intro hth
      unfold dedup_against_recent
      rw [if_neg (by
        rintro (h | h)
        · exact hct h
        · exact hrts h)]
      rw [if_neg hne]
      dsimp only
      rw [if_neg hth]

/-- Witness for C3: an empty candidate text gives the not-duplicate,
similarity-0 result. -/
theorem dedup_verdict_structure_witness :
    dedup_against_recent "" "cu" ["alpha"] ["https://r.example/1"] (1/2)
      = some { is_duplicate := false, duplicate_of_url := none,
               best_similarity := 0 } :=
  (dedup_verdict_structure "" "cu" ["alpha"] ["https://r.example/1"] (1/2)).1
    (Or.inl rfl)

theorem sum_sq_nonneg (v : List ℝ) : 0 ≤ (v.map (fun x => x ^ 2)).sum := by
  apply List.sum_nonneg
  intro x hx
  obtain ⟨y, _, rfl⟩ := List.mem_map.mp hx
  exact sq_nonneg y

theorem l2norm_nonneg (v : List ℝ) : 0 ≤ l2norm v := Real.sqrt_nonneg _

theorem sum_sq_eq_zero_all (v : List ℝ) (h : (v.map (fun x => x ^ 2)).sum = 0) :
    ∀ x ∈ v, x = 0 := by
  induction v with
  | nil => intro x hx; cases hx
  | cons a t ih =>
      simp only [List.map_cons, List.sum_cons] at h
      have h1 : 0 ≤ a ^ 2 := sq_nonneg a
      have h2 : 0 ≤ (t.map (fun x => x ^ 2)).sum := sum_sq_nonneg t
      have ha : a ^ 2 = 0 := by linarith
      have ht : (t.map (fun x => x ^ 2)).sum = 0 := by linarith
      intro x hx
      rcases List.mem_cons.mp hx with rfl | hx2
      · exact pow_eq_zero_iff (by norm_num) |>.mp ha
      · exact ih ht x hx2

theorem l2norm_eq_zero_all (v : List ℝ) (h : l2norm v = 0) : ∀ x ∈ v, x = 0 := by
  apply sum_sq_eq_zero_all
  unfold l2norm at h
  exact (Real.sqrt_eq_zero (sum_sq_nonneg v)).mp h

theorem sum_sq_map_div (v : List ℝ) (c : ℝ) :
    ((v.map (fun x => x / c)).map (fun x => x ^ 2)).sum
      = (v.map (fun x => x ^ 2)).sum / c ^ 2 := by
  induction v with
  | nil => simp
  | cons a t ih =>
      simp only [List.map_cons, List.sum_cons, ih]
      rw [div_pow, div_add_div_same]

theorem l2norm_map_div (v : List ℝ) (c : ℝ) (hc : 0 ≤ c) :
    l2norm (v.map (fun x => x / c)) = l2norm v / c := by
  unfold l2norm
  rw [sum_sq_map_div]
  rw [Real.sqrt_div (sum_sq_nonneg v)]
  rw [Real.sqrt_sq hc]

theorem normalizeRow_of_ne_zero (v : List ℝ) (h : l2norm v ≠ 0) :
    normalizeRow v = v.map (fun x => x / l2norm v) := by
  unfold normalizeRow
  simp [h]

theorem l2norm_normalizeRow (v : List ℝ) (h : l2norm v ≠ 0) :
    l2norm (normalizeRow v) = 1 := by
  rw [normalizeRow_of_ne_zero v h]
  rw [l2norm_map_div v (l2norm v) (l2norm_nonneg v)]
  exact div_self h

theorem normalizeRow_zero (v : List ℝ) (h : l2norm v = 0) :
    ∀ x ∈ normalizeRow v, x = 0 := by
  intro x hx
  unfold normalizeRow at hx
  obtain ⟨y, hy, rfl⟩ := List.mem_map.mp hx
  rw [l2norm_eq_zero_all v h y hy]
  simp

theorem dotR_map_div (a b : ℝ) :
    ∀ (u v : List ℝ),
    dotR (u.map (fun x => x / a)) (v.map (fun x => x / b)) = dotR u v / (a * b) := by
  intro u
  induction u with
  | nil => intro v; simp [dotR]
  | cons x xs ih =>
      intro v
      cases v with
      | nil => simp [dotR]
      | cons y ys =>
          simp only [List.map_cons, dotR, List.zipWith_cons_cons, List.sum_cons]
          have := ih ys
          unfold dotR at this
          rw [this]
          rw [div_mul_div_comm, div_add_div_same]

/-- C8: every row of `transform_tfidf` is the L2-normalization of its
raw tf-idf row: its Euclidean norm is 1 unless the raw row has zero
norm, in which case the returned row is all zeros (the division is
guarded, never ill-defined), and the dot product of two returned rows
with nonzero raw norms equals the cosine similarity of the raw rows. -/
theorem transform_rows_normalized (texts : List String) (model : TfidfModel)
    (lo hi : ℕ) (i : ℕ) (hi2 : i < texts.length) :
    (transform_tfidf texts model lo hi).getD i []
      = normalizeRow (rawRow model lo hi (texts.getD i "")) ∧
    (l2norm (rawRow model lo hi (texts.getD i "")) ≠ 0 →
      l2norm ((transform_tfidf texts model lo hi).getD i []) = 1) ∧
    (l2norm (rawRow model lo hi (texts.getD i "")) = 0 →
      ∀ x ∈ (transform_tfidf texts model lo hi).getD i [], x = 0) ∧
    (∀ j, j < texts.length →
      l2norm (rawRow model lo hi (texts.getD i "")) ≠ 0 →
      l2norm (rawRow model lo hi (texts.getD j "")) ≠ 0 →
      dotR ((transform_tfidf texts model lo hi).getD i [])
           ((transform_tfidf texts model lo hi).getD j [])
        = dotR (rawRow model lo hi (texts.getD i ""))
               (rawRow model lo hi (texts.getD j ""))
          / (l2norm (rawRow model lo hi (texts.getD i ""))
             * l2norm (rawRow model lo hi (texts.getD j "")))) := by
  have hrow : ∀ k, k < texts.length →
      (transform_tfidf texts model lo hi).getD k []
        = normalizeRow (rawRow model lo hi (texts.getD k "")) := by
    intro k hk
    unfold transform_tfidf
    rw [List.getD_eq_getElem _ _ (by simpa using hk)]
    rw [List.getElem_map]
    rw [List.getD_eq_getElem _ _ hk]
  have h1 := hrow i hi2
  refine ⟨h1, ?_, ?_, ?_⟩
  · intro hnz
    rw [h1]
    exact l2norm_normalizeRow _ hnz
  · intro hz
    rw [h1]
    exact normalizeRow_zero _ hz
  · intro j hj hnzi hnzj
    rw [h1, hrow j hj]
    rw [normalizeRow_of_ne_zero _ hnzi, normalizeRow_of_ne_zero _ hnzj]
    exact dotR_map_div _ _ _ _

/-- Witness for C8: a one-document transform against a one-term model
yields a row of norm 1. -/
theorem transform_rows_normalized_witness :
    l2norm ((transform_tfidf ["aa aa"] ⟨["aa"], [1]⟩ 1 1).getD 0 []) = 1 := by
  have hc : ((_ngrams (_tokenize "aa aa") 1 1).count "aa" : ℝ) = 2 := by
    rw [show (_ngrams (_tokenize "aa aa") 1 1).count "aa" = 2 from by decide]
    norm_num
  have hraw : rawRow ⟨["aa"], [1]⟩ 1 1 "aa aa" = [2] := by
    unfold rawRow
    simp only [List.zip_cons_cons, List.zip_nil_right, List.map_cons, List.map_nil]
    rw [hc]
    norm_num
  have hnz : l2norm (rawRow ⟨["aa"], [1]⟩ 1 1 "aa aa") ≠ 0 := by
    rw [hraw]
    unfold l2norm
    simp only [List.map_cons, List.map_nil, List.sum_cons, List.sum_nil, add_zero]
    rw [Real.sqrt_sq (by norm_num)]
    norm_num
  exact (transform_rows_normalized ["aa aa"] ⟨["aa"], [1]⟩ 1 1 0 (by norm_num)).2.1 hnz

theorem uniqueKeep_append (l : List String) (x : String) :
    uniqueKeep (l ++ [x])
      = if x ∈ uniqueKeep l then uniqueKeep l else uniqueKeep l ++ [x] := by
  unfold uniqueKeep
  rw [List.foldl_append]
  rfl

theorem mem_uniqueKeep (x : String) : ∀ (l : List String), x ∈ uniqueKeep l ↔ x ∈ l := by
  intro l
  induction l using List.reverseRecOn with
  | nil => simp [uniqueKeep]
  | append_singleton p a ih =>
      rw [uniqueKeep_append]
      by_cases hm : a ∈ uniqueKeep p
      · rw [if_pos hm]
        simp only [List.mem_append, List.mem_singleton, ih]
        constructor
        · exact fun h => Or.inl h
        · rintro (h | rfl)
          · exact h
          · exact ih.mp hm
      · rw [if_neg hm]
        simp [ih]

theorem nodup_uniqueKeep : ∀ (l : List String), (uniqueKeep l).Nodup := by
  intro l
  induction l using List.reverseRecOn with
  | nil => simp [uniqueKeep]
  | append_singleton p a ih =>
      rw [uniqueKeep_append]
      by_cases hm : a ∈ uniqueKeep p
      · rw [if_pos hm]; exact ih
      · rw [if_neg hm]
        simp [List.nodup_append, ih, hm]

theorem dfLookup_counterAdd (c : List (String × ℕ)) (k k2 : String) :
    dfLookup (counterAdd c k) k2 = dfLookup c k2 + (if k = k2 then 1 else 0) := by
  induction c with
  | nil =>
      by_cases h : k = k2
      · subst h; simp [counterAdd, dfLookup, List.find?]
      · have hb : (k == k2) = false := by simpa using h
        simp [counterAdd, dfLookup, List.find?, hb, h]
  | cons hd rest ih =>
      obtain ⟨t, n⟩ := hd
      by_cases htk : t = k
      · subst htk
        simp only [counterAdd, if_pos rfl]
        by_cases ht2 : t = k2
        · subst ht2
          simp [dfLookup, List.find?]
        · have : (t == k2) = false := by simpa using ht2
          simp [dfLookup, List.find?, this, ht2]
      · simp only [counterAdd, if_neg htk]
        by_cases ht2 : t = k2
        · subst ht2
          have hk2 : ¬ k = t := fun h => htk h.symm
          simp [dfLookup, List.find?, hk2]
        · have : (t == k2) = false := by simpa using ht2
          simp only [dfLookup, List.find?, this]
          exact ih

theorem dfLookup_counterFold :
    ∀ (ks : List String), ks.Nodup →
    ∀ (c : List (String × ℕ)) (k2 : String),
    dfLookup (ks.foldl counterAdd c) k2
      = dfLookup c k2 + (if k2 ∈ ks then 1 else 0) := by
  intro ks
  induction ks with
  | nil => intro _ c k2; simp
  | cons t rest ih =>
      intro hnd c k2
      simp only [List.foldl_cons]
      rw [ih (List.nodup_cons.mp hnd).2 (counterAdd c t) k2]
      rw [dfLookup_counterAdd]
      by_cases h1 : t = k2
      · subst h1
        have : t ∉ rest := (List.nodup_cons.mp hnd).1
        simp [this]
      · by_cases h2 : k2 ∈ rest
        · simp [h1, h2]
        · have h3 : ¬ k2 = t := fun hh => h1 hh.symm
          simp [h1, h2, h3]

theorem dfLookup_dfCounter (texts : List String) (lo hi : ℕ) (t : String) :
    dfLookup (dfCounter texts lo hi) t
      = texts.countP (fun d => (_ngrams (_tokenize d) lo hi).contains t) := by
  induction texts using List.reverseRecOn with
  | nil => simp [dfCounter, dfLookup, List.find?]
  | append_singleton p d ih =>
      have hstep : dfCounter (p ++ [d]) lo hi
          = (uniqueKeep (_ngrams (_tokenize d) lo hi)).foldl counterAdd
              (dfCounter p lo hi) := by
        unfold dfCounter
        rw [List.foldl_append]
        rfl
      rw [hstep]
      rw [dfLookup_counterFold _ (nodup_uniqueKeep _) _ t]
      rw [ih]
      rw [List.countP_append]
      congr 1
      simp only [List.countP_cons, List.countP_nil]
      by_cases hm : t ∈ _ngrams (_tokenize d) lo hi
      · rw [if_pos ((mem_uniqueKeep t _).mpr hm)]
        simp [hm]
      · rw [if_neg (fun h => hm ((mem_uniqueKeep t _).mp h))]
        simp [hm]

theorem counterAdd_keys (c : List (String × ℕ)) (k : String) :
    (counterAdd c k).map Prod.fst
      = if k ∈ c.map Prod.fst then c.map Prod.fst else c.map Prod.fst ++ [k] := by
  induction c with
  | nil => simp [counterAdd]
  | cons hd rest ih =>
      obtain ⟨t, n⟩ := hd
      by_cases htk : t = k
      · subst htk
        simp [counterAdd]
      · simp only [counterAdd, if_neg htk, List.map_cons, ih]
        by_cases hm : k ∈ rest.map Prod.fst
        · simp only [hm, if_true]
          rw [if_pos (by simp [hm])]
        · simp only [hm, if_false]
          rw [if_neg (by
            simp only [List.mem_cons]
            rintro (h | h)
            · exact htk h.symm
            · exact hm h)]
          simp

theorem counterAdd_keysNodup (c : List (String × ℕ)) (k : String)
    (h : (c.map Prod.fst).Nodup) : ((counterAdd c k).map Prod.fst).Nodup := by
  rw [counterAdd_keys]
  by_cases hm : k ∈ c.map Prod.fst
  · rw [if_pos hm]; exact h
  · rw [if_neg hm]
    simp [List.nodup_append, h, hm]

theorem counterFold_keysNodup :
    ∀ (ks : List String) (c : List (String × ℕ)),
    (c.map Prod.fst).Nodup → ((ks.foldl counterAdd c).map Prod.fst).Nodup := by
  intro ks
  induction ks with
  | nil => intro c h; exact h
  | cons t rest ih =>
      intro c h
      simp only [List.foldl_cons]
      exact ih (counterAdd c t) (counterAdd_keysNodup c t h)

theorem dfCounter_keysNodup (texts : List String) (lo hi : ℕ) :
    ((dfCounter texts lo hi).map Prod.fst).Nodup := by
  induction texts using List.reverseRecOn with
  | nil => simp [dfCounter]
  | append_singleton p d ih =>
      have hstep : dfCounter (p ++ [d]) lo hi
          = (uniqueKeep (_ngrams (_tokenize d) lo hi)).foldl counterAdd
              (dfCounter p lo hi) := by
        unfold dfCounter
        rw [List.foldl_append]
        rfl
      rw [hstep]
      exact counterFold_keysNodup _ _ ih

theorem dfLookup_of_mem :
    ∀ (c : List (String × ℕ)), (c.map Prod.fst).Nodup →
    ∀ (t : String) (n : ℕ), (t, n) ∈ c → dfLookup c t = n := by
  intro c
  induction c with
  | nil => intro _ t n h; cases h
  | cons hd rest ih =>
      intro hnd t n h
      obtain ⟨t0, n0⟩ := hd
      rcases List.mem_cons.mp h with h1 | h1
      · rw [Prod.ext_iff] at h1
        obtain ⟨h1a, h1b⟩ := h1
        dsimp only at h1a h1b
        subst h1a
        subst h1b
        simp [dfLookup, List.find?]
      · by_cases ht0 : t0 = t
        · subst ht0
          exfalso
          have : t0 ∈ rest.map Prod.fst := List.mem_map.mpr ⟨(t0, n), h1, rfl⟩
          simp only [List.map_cons, List.nodup_cons] at hnd
          exact hnd.1 this
        · have hb : (t0 == t) = false := by simpa using ht0
          simp only [dfLookup, List.find?, hb]
          have := ih (by simp only [List.map_cons, List.nodup_cons] at hnd; exact hnd.2) t n h1
          simpa [dfLookup] using this

theorem strLeGo_total : ∀ (as bs : List Char),
    strLeGo as bs = true ∨ strLeGo bs as = true := by
  intro as
  induction as with
  | nil => intro bs; left; rfl
  | cons c cs ih =>
      intro bs
      cases bs with
      | nil => right; rfl
      | cons d ds =>
          simp only [strLeGo]
          rcases Nat.lt_trichotomy c.toNat d.toNat with h | h | h
          · left; simp [h]
          · have h1 : ¬ c.toNat < d.toNat := by omega
            have h2 : ¬ d.toNat < c.toNat := by omega
            simp only [h1, h2, if_false]
            exact ih ds
          · right; simp [h]

theorem strLeGo_trans : ∀ (as bs cs : List Char),
    strLeGo as bs = true → strLeGo bs cs = true → strLeGo as cs = true := by
  intro as
  induction as with
  | nil => intro bs cs _ _; rfl
  | cons a as2 ih =>
      intro bs cs h1 h2
      cases bs with
      | nil => simp [strLeGo] at h1
      | cons b bs2 =>
          cases cs with
          | nil => simp [strLeGo] at h2
          | cons c cs2 =>
              simp only [strLeGo] at h1 h2 ⊢
              split_ifs at h1 h2 ⊢ <;>
                first
                | rfl
                | exact Bool.noConfusion h1
                | exact Bool.noConfusion h2
                | omega
                | exact ih bs2 cs2 h1 h2

theorem keyLe_total : ∀ (a b : String × ℕ), (keyLe a b || keyLe b a) = true := by
  intro a b
  unfold keyLe strLe
  rcases Nat.lt_trichotomy a.2 b.2 with h | h | h
  · simp [h]
  · simp only [h, lt_irrefl, decide_False, Bool.false_or, beq_self_eq_true,
      Bool.true_and]
    rcases strLeGo_total a.1.toList b.1.toList with h2 | h2
    · simp only [h2, Bool.true_or]
    · simp only [h2, Bool.or_true]
  · simp [h]

theorem keyLe_trans : ∀ (a b c : String × ℕ),
    keyLe a b = true → keyLe b c = true → keyLe a c = true := by
  intro a b c h1 h2
  unfold keyLe strLe at h1 h2 ⊢
  simp only [Bool.or_eq_true, decide_eq_true_eq, Bool.and_eq_true, beq_iff_eq] at h1 h2 ⊢
  rcases h1 with h1 | ⟨h1e, h1s⟩
  · rcases h2 with h2 | ⟨h2e, h2s⟩
    · left; omega
    · left; omega
  · rcases h2 with h2 | ⟨h2e, h2s⟩
    · left; omega
    · right
      exact ⟨by omega, strLeGo_trans _ _ _ h1s h2s⟩

/-- C7: `fit_tfidf` counts, for each n-gram, the number of documents
containing it at least once (document frequency, not term frequency),
drops terms below `min_df`, ranks survivors by descending document
frequency with ties broken lexicographically ascending, keeps the top
`max_features` in that order as the vocabulary (column `i` is rank
`i`), and stores idf `ln((1+N)/(1+df)) + 1` per kept term with
`N = max(1, corpus size)`. -/
theorem fit_tfidf_vocabulary (texts : List String) (max_features lo hi min_df : ℕ) :
    (∀ t, dfLookup (dfCounter texts lo hi) t
        = texts.countP (fun d => (_ngrams (_tokenize d) lo hi).contains t)) ∧
    List.Pairwise (fun a b => keyLe a b = true) (fitItems texts lo hi min_df) ∧
    (fitItems texts lo hi min_df).Perm
      ((dfCounter texts lo hi).filter (fun p => decide (min_df ≤ p.2))) ∧
    (fit_tfidf texts max_features lo hi min_df).vocab
      = ((fitItems texts lo hi min_df).take max_features).map Prod.fst ∧
    (fit_tfidf texts max_features lo hi min_df).vocab.length ≤ max_features ∧
    (∀ p ∈ fitItems texts lo hi min_df, min_df ≤ p.2) ∧
    (∀ i, i < (fit_tfidf texts max_features lo hi min_df).vocab.length →
      (fit_tfidf texts max_features lo hi min_df).idf.getD i 0
        = Real.log ((1 + (max 1 texts.length : ℕ))
            / (1 + (dfLookup (dfCounter texts lo hi)
                ((fit_tfidf texts max_features lo hi min_df).vocab.getD i "") : ℝ)))
          + 1) := by
  refine ⟨dfLookup_dfCounter texts lo hi, ?_, ?_, rfl, ?_, ?_, ?_⟩
  · exact List.sorted_mergeSort keyLe_trans keyLe_total _
  · exact List.mergeSort_perm _ keyLe
  · simp only [fit_tfidf, List.length_map, List.length_take]
    exact min_le_left _ _
  · intro p hp
    have hp2 := (List.mergeSort_perm
      ((dfCounter texts lo hi).filter (fun p => decide (min_df ≤ p.2))) keyLe).mem_iff.mp hp
    have := List.of_mem_filter hp2
    simpa using this
  · intro i hi2
    simp only [fit_tfidf, List.length_map] at hi2 ⊢
    set kept := (fitItems texts lo hi min_df).take max_features with hkept
    rw [List.getD_eq_getElem _ _ (by simpa using hi2),
        List.getD_eq_getElem _ _ (by simpa using hi2)]
    rw [List.getElem_map, List.getElem_map]
    have hmem : kept[i] ∈ kept := List.getElem_mem (by simpa using hi2)
    have hmem2 : kept[i] ∈ fitItems texts lo hi min_df :=
      List.mem_of_mem_take hmem
    have hmem3 := (List.mergeSort_perm
      ((dfCounter texts lo hi).filter (fun p => decide (min_df ≤ p.2))) keyLe).mem_iff.mp hmem2
    have hmem4 : kept[i] ∈ dfCounter texts lo hi := List.mem_of_mem_filter hmem3
    have hdf : dfLookup (dfCounter texts lo hi) kept[i].1 = kept[i].2 :=
      dfLookup_of_mem _ (dfCounter_keysNodup texts lo hi) kept[i].1 kept[i].2
        (by simpa using hmem4)
    rw [hdf]

/-- Witness for C7: the idf stored at column 0 of a concrete fit equals
the smoothed-idf formula at that column's document frequency. -/
theorem fit_tfidf_vocabulary_witness :
    (fit_tfidf ["beta alpha beta", "alpha beta"] 5 1 1 2).idf.getD 0 0
      = Real.log ((1 + (max 1 (["beta alpha beta", "alpha beta"] : List String).length : ℕ))
          / (1 + (dfLookup (dfCounter ["beta alpha beta", "alpha beta"] 1 1)
              ((fit_tfidf ["beta alpha beta", "alpha beta"] 5 1 1 2).vocab.getD 0 "") : ℝ)))
        + 1 := by
  apply (fit_tfidf_vocabulary ["beta alpha beta", "alpha beta"] 5 1 1 2).2.2.2.2.2.2 0
  simp only [fit_tfidf, List.length_map, List.length_take, fitItems, List.length_mergeSort]
  rw [show ((dfCounter ["beta alpha beta", "alpha beta"] 1 1).filter
      (fun p => decide (2 ≤ p.2))).length = 2 from by decide]
  omega

theorem dotR_zero_right : ∀ (u v : List ℝ), (∀ b ∈ v, b = 0) → dotR u v = 0 := by
  intro u
  induction u with
  | nil => intro v _; simp [dotR]
  | cons x xs ih =>
      intro v hv
      cases v with
      | nil => simp [dotR]
      | cons y ys =>
          have hy : y = 0 := hv y (by simp)
          have := ih ys (fun b hb => hv b (by simp [hb]))
          unfold dotR at this ⊢
          simp only [List.zipWith_cons_cons, List.sum_cons, hy, mul_zero, zero_add]
          exact this

theorem vocab_term_df (texts : List String) (mf lo hi mdf : ℕ) (t : String)
    (h : t ∈ (fit_tfidf texts mf lo hi mdf).vocab) :
    mdf ≤ texts.countP (fun d => (_ngrams (_tokenize d) lo hi).contains t) := by
  simp only [fit_tfidf] at h
  obtain ⟨p, hp, rfl⟩ := List.mem_map.mp h
  have hp2 : p ∈ fitItems texts lo hi mdf := List.mem_of_mem_take hp
  have hp3 := (List.mergeSort_perm
    ((dfCounter texts lo hi).filter (fun q => decide (mdf ≤ q.2))) keyLe).mem_iff.mp hp2
  have hdf : mdf ≤ p.2 := by simpa using List.of_mem_filter hp3
  have hp4 : p ∈ dfCounter texts lo hi := List.mem_of_mem_filter hp3
  have hlk : dfLookup (dfCounter texts lo hi) p.1 = p.2 :=
    dfLookup_of_mem _ (dfCounter_keysNodup texts lo hi) p.1 p.2 (by simpa using hp4)
  rw [← dfLookup_dfCounter, hlk]
  exact hdf

theorem candidate_row_zero (ct : String) (rts : List String)
    (hdisj : ∀ t ∈ _ngrams (_tokenize ct) 1 2, ∀ d ∈ rts, t ∉ _ngrams (_tokenize d) 1 2) :
    ∀ x ∈ rawRow (fit_tfidf (ct :: rts) 8000 1 2 2) 1 2 ct, x = 0 := by
  intro x hx
  unfold rawRow at hx
  obtain ⟨p, hp, rfl⟩ := List.mem_map.mp hx
  have hvoc : p.1 ∈ (fit_tfidf (ct :: rts) 8000 1 2 2).vocab := by
    obtain ⟨t, w⟩ := p
    exact (List.of_mem_zip hp).1
  have hdf := vocab_term_df (ct :: rts) 8000 1 2 2 p.1 hvoc
  have hnotin : p.1 ∉ _ngrams (_tokenize ct) 1 2 := by
    intro hin
    have hz : rts.countP (fun d => (_ngrams (_tokenize d) 1 2).contains p.1) = 0 := by
      rw [List.countP_eq_zero]
      intro d hd
      simpa using hdisj p.1 hin d hd
    rw [List.countP_cons, hz] at hdf
    by_cases hc : ((_ngrams (_tokenize ct) 1 2).contains p.1) = true
    · rw [if_pos hc] at hdf
      omega
    · rw [if_neg hc] at hdf
      omega
  have hcount : (_ngrams (_tokenize ct) 1 2).count p.1 = 0 :=
    List.count_eq_zero.mpr hnotin
  rw [hcount]
  simp

/-- C9 (amended): whenever no token n-gram of the candidate occurs in
any recent text (disjoint vocabularies) and the threshold is positive
(thresholds at or below zero are degenerate: the best similarity is
exactly 0 and the inclusive comparison would then flag a duplicate),
`dedup_against_recent` reports not-duplicate. -/
theorem dedup_disjoint_not_duplicate (ct cu : String) (rts rus : List String) (θ : ℝ)
    (hθ : 0 < θ)
    (hdisj : ∀ t ∈ _ngrams (_tokenize ct) 1 2, ∀ d ∈ rts, t ∉ _ngrams (_tokenize d) 1 2) :
    Option.all (fun r => !r.is_duplicate) (dedup_against_recent ct cu rts rus θ) = true := by
  classical
  unfold dedup_against_recent
  by_cases h1 : ct = "" ∨ rts = []
  · rw [if_pos h1]
    rfl
  · rw [if_neg h1]
    by_cases h2 : dedupSims ct rts = []
    · rw [if_pos h2]
      rfl
    · rw [if_neg h2]
      dsimp only
      have hall : ∀ x ∈ dedupSims ct rts, x = 0 := by
        intro x hx
        unfold dedupSims at hx
        dsimp only at hx
        obtain ⟨row, hrow, rfl⟩ := List.mem_map.mp hx
        apply dotR_zero_right
        have hhead : (transform_tfidf (ct :: rts)
              (fit_tfidf (ct :: rts) 8000 1 2 2) 1 2).headI
            = normalizeRow (rawRow (fit_tfidf (ct :: rts) 8000 1 2 2) 1 2 ct) := by
          simp [transform_tfidf]
        rw [hhead]
        intro b hb
        unfold normalizeRow at hb
        obtain ⟨y, hy, rfl⟩ := List.mem_map.mp hb
        rw [candidate_row_zero ct rts hdisj y hy]
        simp
      have hval : (dedupSims ct rts).getD (argmaxR (dedupSims ct rts)) 0 = 0 := by
        by_cases hb : argmaxR (dedupSims ct rts) < (dedupSims ct rts).length
        · rw [List.getD_eq_getElem _ _ hb]
          exact hall _ (List.getElem_mem hb)
        · rw [List.getD_eq_default _ _ (by omega)]
      rw [hval]
      rw [if_neg (by intro hle; linarith)]
      rfl

/-- Witness for the amended C9: disjoint texts with threshold 1 are not
flagged as duplicates. -/
theorem dedup_disjoint_not_duplicate_witness :
    Option.all (fun r => !r.is_duplicate)
      (dedup_against_recent "alpha beta" "cu" ["delta epsilon"] ["https://r.example/1"] 1)
      = true :=
  dedup_disjoint_not_duplicate "alpha beta" "cu" ["delta epsilon"]
    ["https://r.example/1"] 1 (by norm_num) (by decide)

theorem fitItems_cx_nil :
    fitItems ["alpha beta", "delta epsilon"] 1 2 2 = [] := by
  unfold fitItems
  rw [show (dfCounter ["alpha beta", "delta epsilon"] 1 2).filter
      (fun p => decide (2 ≤ p.2)) = [] from by decide]
  have := List.mergeSort_perm ([] : List (String × ℕ)) keyLe
  exact List.Perm.eq_nil this

theorem fit_cx_empty :
    fit_tfidf ["alpha beta", "delta epsilon"] 8000 1 2 2 = ⟨[], []⟩ := by
  unfold fit_tfidf
  rw [fitItems_cx_nil]
  rfl

theorem transform_cx :
    transform_tfidf ["alpha beta", "delta epsilon"] ⟨[], []⟩ 1 2 = [[], []] := by
  unfold transform_tfidf rawRow normalizeRow
  simp

theorem dedupSims_cx : dedupSims "alpha beta" ["delta epsilon"] = [0] := by
  unfold dedupSims
  dsimp only
  rw [fit_cx_empty, transform_cx]
  simp [dotR]

theorem argmaxR_single : argmaxR [(0 : ℝ)] = 0 := by
  classical
  unfold argmaxR
  rw [List.findIdx_cons]
  rw [show (decide (∀ y ∈ [(0 : ℝ)], y ≤ 0)) = true from by simp]
  rfl

/-- Counterexample to C9 as stated: at threshold 0 (the claim quantifies
over every threshold) two texts with entirely disjoint vocabularies are
flagged as duplicates, because the best similarity is exactly 0 and the
threshold comparison is inclusive. -/
theorem dedup_disjoint_counterexample :
    dedup_against_recent "alpha beta" "cu" ["delta epsilon"] ["https://r.example/1"] 0
      = some { is_duplicate := true, duplicate_of_url := some "https://r.example/1",
               best_similarity := 0 } := by
  classical
  unfold dedup_against_recent
  rw [if_neg (by
    rintro (h | h) <;> simp at h)]
  rw [dedupSims_cx]
  rw [if_neg (by simp)]
  dsimp only
  rw [argmaxR_single]
  rw [show ([(0 : ℝ)].getD 0 0) = 0 from rfl]
  rw [if_pos le_rfl]
  rfl

/-! ### Link discovery (`discover.py`)

HTML parsing (BeautifulSoup) is an external collaborator: discovery is
embedded over the anchor list `(href, anchor text)` it yields.  The
`urllib.parse` helpers (`urlparse`, `urljoin`, `parse_qsl`, `urlencode`,
`urlunparse`) are modelled for the generic `scheme://netloc/path?query#fragment`
syntax, with percent-encoding as the identity (the discovery pipeline
round-trips components it does not rewrite). -/

/-- Prefix test on character lists. -/
def listIsPfx : List Char → List Char → Bool
  | [], _ => true
  | _ :: _, [] => false
  | a :: as, b :: bs => a == b && listIsPfx as bs

/-- `str.startswith`. -/
def strStartsWith (s pre : String) : Bool := listIsPfx pre.toList s.toList

/-- `str.endswith`. -/
def strEndsWith (s suf : String) : Bool :=
  listIsPfx suf.toList.reverse s.toList.reverse

/-- Substring containment (`x in s`). -/
def containsSubstring (s sub : String) : Bool :=
  (List.range (s.toList.length + 1)).any (fun i => listIsPfx sub.toList (s.toList.drop i))

/-- ASCII `str.lower` (inputs here are URLs and ASCII hrefs). -/
def asciiLower (s : String) : String := String.mk (s.toList.map toLowerAscii)

/-- Python whitespace for `str.strip`. -/
def isPySpace (c : Char) : Bool :=
  c == ' ' || c == '\t' || c == '\n' || c == '\r' || c.toNat == 11 || c.toNat == 12

/-- `str.strip()`. -/
def trimStr (s : String) : String :=
  String.mk (((s.toList.dropWhile isPySpace).reverse.dropWhile isPySpace).reverse)

/-- `str.split(sep)` on a single character (empty string gives one empty
field, like Python). -/
def splitOnChar (sep : Char) : List Char → List (List Char)
  | [] => [[]]
  | c :: rest =>
      if c == sep then [] :: splitOnChar sep rest
      else
        match splitOnChar sep rest with
        | [] => [[c]]
        | g :: gs => (c :: g) :: gs

/-- `str.split(sep)` returning strings. -/
def splitStr (sep : Char) (s : String) : List String :=
  (splitOnChar sep s.toList).map String.mk

/-- Split at the first occurrence of `sep`: the part before it and,
when present, the part after it. -/
def splitFirstChar (sep : Char) : List Char → List Char × Option (List Char)
  | [] => ([], none)
  | c :: rest =>
      if c == sep then ([], some rest)
      else
        match splitFirstChar sep rest with
        | (pre, post) => (c :: pre, post)

/-- Mirror of the `urllib.parse` 5-tuple (the unused `params` component
is folded into `path`; no input here uses `;`-params). -/
structure UrlParts where
  scheme : String
  netloc : String
  path : String
  query : String
  fragment : String
deriving DecidableEq

/-- Characters allowed in a URL scheme. -/
def isSchemeChar (c : Char) : Bool :=
  pyIsAlpha c || (48 ≤ c.toNat && c.toNat ≤ 57) || c == '+' || c == '-' || c == '.'

/-- `urllib.parse.urlparse` for the generic URL syntax. -/
def urlparse (url : String) : UrlParts :=
  let (beforeF, fragO) := splitFirstChar '#' url.toList
  let (schemeRaw, restO) := splitFirstChar ':' beforeF
  let hasScheme := restO.isSome && !schemeRaw.isEmpty && schemeRaw.all isSchemeChar
  let scheme := if hasScheme then schemeRaw.map toLowerAscii else []
  let rest := if hasScheme then restO.getD [] else beforeF
  let hasNetloc := listIsPfx ['/', '/'] rest
  let afterSlashes := rest.drop 2
  let netloc := if hasNetloc then afterSlashes.takeWhile (fun c => !(c == '/' || c == '?')) else []
  let rest2 := if hasNetloc then afterSlashes.drop netloc.length else rest
  let (path, queryO) := splitFirstChar '?' rest2
  { scheme := String.mk scheme, netloc := String.mk netloc, path := String.mk path,
    query := String.mk (queryO.getD []), fragment := String.mk (fragO.getD []) }

/-- `urllib.parse.urlunparse`. -/
def urlunparse (u : UrlParts) : String :=
  let s1 := if u.netloc = "" then u.path else "//" ++ u.netloc ++ u.path
  let s2 := if u.scheme = "" then s1 else u.scheme ++ ":" ++ s1
  let s3 := if u.query = "" then s2 else s2 ++ "?" ++ u.query
  if u.fragment = "" then s3 else s3 ++ "#" ++ u.fragment

/-- Relative-path merge and dot-segment resolution of `urljoin`. -/
def urljoinPath (bpath upath : String) : String :=
  let segments :=
    if strStartsWith upath "/" then splitStr '/' upath
    else (splitStr '/' bpath).dropLast ++ splitStr '/' upath
  let segments :=
    if segments.getLast? = some "." ∨ segments.getLast? = some ".." then segments ++ [""]
    else segments
  let resolved := segments.foldl (fun acc seg =>
    if seg = ".." then (if 1 < acc.length then acc.dropLast else acc)
    else if seg = "." then acc
    else acc ++ [seg]) []
  let joined := String.intercalate "/" resolved
  if joined = "" then "/" else joined

/-- `urllib.parse.urljoin` for relative-capable schemes such as http(s). -/
def urljoin (base url : String) : String :=
  if base = "" then url
  else if url = "" then base
  else
    let b := urlparse base
    let u := urlparse url
    let uscheme := if u.scheme = "" then b.scheme else u.scheme
    if uscheme ≠ b.scheme then url
    else if u.netloc ≠ "" then
      urlunparse { u with scheme := uscheme }
    else if u.path = "" then
      urlunparse { scheme := uscheme, netloc := b.netloc, path := b.path,
                   query := if u.query = "" then b.query else u.query,
                   fragment := u.fragment }
    else
      urlunparse { scheme := uscheme, netloc := b.netloc,
                   path := urljoinPath b.path u.path,
                   query := u.query, fragment := u.fragment }

/-- `urllib.parse.parse_qsl` with `keep_blank_values=False` (pairs with
no `=` or an empty value are dropped); unquoting is the identity on the
reserved-free inputs handled here. -/
def parse_qsl (query : String) : List (String × String) :=
  (splitOnChar '&' query.toList).filterMap (fun pair =>
    if pair.isEmpty then none
    else
      match splitFirstChar '=' pair with
      | (_, none) => none
      | (k, some v) => if v.isEmpty then none else some (String.mk k, String.mk v))

/-- `urllib.parse.urlencode` on already-encoded pairs. -/
def urlencode (params : List (String × String)) : String :=
  String.intercalate "&" (params.map (fun p => p.1 ++ "=" ++ p.2))

/-- Mirror of the `DiscoveredLink` dataclass. -/
structure DiscoveredLink where
  url : String
  title : Option String
deriving DecidableEq

/-- `_DEFAULT_DENY_SUBSTRINGS`. -/
def _DEFAULT_DENY_SUBSTRINGS : List String :=
  ["/video/", "/live/", "/podcast", "/subscribe", "/signin", "/login", "/account",
   "#", "javascript:"]

/-- `_DEFAULT_TRACKING_PARAMS`. -/
def _DEFAULT_TRACKING_PARAMS : List String :=
  ["fbclid", "gclid", "msclkid", "mc_cid", "mc_eid", "guccounter", "guce_referrer",
   "guce_referrer_sig", "soc_src", "soc_trk", "cmpid"]

/-- `_HUB_PATH_SUBSTRINGS`. -/
def _HUB_PATH_SUBSTRINGS : List String :=
  ["/topic/", "/topics/", "/tag/", "/tags/", "/category/", "/categories/",
   "/section/", "/sections/", "/author/", "/authors/", "/search", "/quote/",
   "/quotes/", "/calendar/", "/screener/"]

/-- Section-root names rejected as single-segment paths. -/
def sectionRoots : List String := ["news", "business", "markets", "world", "finance"]

/-- `_same_domain`. -/
def _same_domain (seed_url url : String) : Bool :=
  asciiLower (urlparse seed_url).netloc == asciiLower (urlparse url).netloc

/-- `_normalize_url`: resolve against the seed, dropping `mailto:` and
`tel:` targets. -/
def _normalize_url (seed_url href : String) : Option String :=
  if href = "" then none
  else
    let h := trimStr href
    if strStartsWith (asciiLower h) "mailto:" || strStartsWith (asciiLower h) "tel:" then none
    else some (urljoin seed_url h)

/-- `_strip_fragment_and_tracking_params`. -/
def _strip_fragment_and_tracking_params (url : String) : String :=
  let p := urlparse url
  if p.scheme = "" ∨ p.netloc = "" then url
  else
    let keep := (parse_qsl p.query).filter (fun kv =>
      !(strStartsWith (asciiLower kv.1) "utm_")
        && !(_DEFAULT_TRACKING_PARAMS.contains (asciiLower kv.1)))
    urlunparse { p with query := urlencode keep, fragment := "" }

/-- ASCII digit. -/
def isDigitChar (c : Char) : Bool := 48 ≤ c.toNat && c.toNat ≤ 57

/-- Match of `_DATE_IN_PATH_RE` at the current position:
`/dddd/dd/dd/` or `/dddd-dd-dd/`. -/
def dateAt : List Char → Bool
  | '/' :: y1 :: y2 :: y3 :: y4 :: s1 :: m1 :: m2 :: s2 :: d1 :: d2 :: '/' :: _ =>
      isDigitChar y1 && isDigitChar y2 && isDigitChar y3 && isDigitChar y4
        && isDigitChar m1 && isDigitChar m2 && isDigitChar d1 && isDigitChar d2
        && ((s1 == '/' && s2 == '/') || (s1 == '-' && s2 == '-'))
  | _ => false

/-- `_DATE_IN_PATH_RE.search`. -/
def dateSearch : List Char → Bool
  | [] => false
  | c :: rest => dateAt (c :: rest) || dateSearch rest

/-- `_looks_like_article_url`. -/
def _looks_like_article_url (url : String) : Bool :=
  let path := asciiLower (urlparse url).path
  dateSearch path.toList
    || strEndsWith path ".html" || strEndsWith path ".htm"
    || containsSubstring path "/article/"
    || (containsSubstring path "/news/" && 4 ≤ (splitStr '/' path).length)

/-- `_is_hub_or_nav_url`. -/
def _is_hub_or_nav_url (url : String) : Bool :=
  let path := asciiLower (urlparse url).path
  _HUB_PATH_SUBSTRINGS.any (fun s => containsSubstring path s)

/-- `str.rstrip("/")`. -/
def rstripSlash (s : String) : String :=
  String.mk ((s.toList.reverse.dropWhile (fun c => c == '/')).reverse)

/-- `_score_candidate` (exact rational arithmetic in place of floats). -/
def _score_candidate (seed_url url : String) (title : Option String) : ℚ :=
  let p := urlparse url
  let path := asciiLower p.path
  let segs := (splitStr '/' path).filter (fun s => !(s == ""))
  let score : ℚ := (min segs.length 8 : ℕ) * (2/5)
  let score := if segs.length = 1 ∧ segs.headI ∈ sectionRoots then score - 10 else score
  let score := if _looks_like_article_url url then score + 8 else score
  let score := if dateSearch path.toList then score + 4 else score
  let score := if strEndsWith path ".html" || strEndsWith path ".htm" then score + 2 else score
  let score := if containsSubstring (segs.getLastD "") "-" then score + 3/2 else score
  let score := if _is_hub_or_nav_url url then score - 8 else score
  let score := if path = "/" ∨ path = "" then score - 10 else score
  let score := if rstripSlash (_strip_fragment_and_tracking_params url)
      = rstripSlash (_strip_fragment_and_tracking_params seed_url) then score - 10 else score
  let score := match title with
    | none => score
    | some t0 =>
        let t := trimStr t0
        if 16 ≤ t.toList.length then score + 3/5
        else if t.toList.length ≤ 5 then score - 3/5
        else score
  if p.query ≠ "" then score - 1/2 else score

/-- The anchor filter loop of `discover_links_from_html`, over the
`(href, anchor text)` pairs the external HTML parser yields, with the
per-call `seen` set of lowercased URLs. -/
def collectCandidates (seed_url : String) (same_domain_only : Bool)
    (allow_re deny_re : Option (String → Bool)) :
    List (String × String) → List String → List DiscoveredLink
  | [], _ => []
  | (href, text) :: rest, seen =>
    match _normalize_url seed_url href with
    | none => collectCandidates seed_url same_domain_only allow_re deny_re rest seen
    | some url0 =>
      let url := _strip_fragment_and_tracking_params url0
      let url_l := asciiLower url
      let skip := collectCandidates seed_url same_domain_only allow_re deny_re rest seen
      if _DEFAULT_DENY_SUBSTRINGS.any (fun s => containsSubstring url_l s) then skip
      else if same_domain_only && !(_same_domain seed_url url) then skip
      else if (match deny_re with | some f => f url | none => false) then skip
      else if (match allow_re with | some f => !(f url) | none => false) then skip
      else if (urlparse url).path = "/" ∨ (urlparse url).path = "" then skip
      else if ((splitStr '/' (asciiLower (urlparse url).path)).filter
          (fun s => !(s == ""))).length = 1
          ∧ ((splitStr '/' (asciiLower (urlparse url).path)).filter
          (fun s => !(s == ""))).headI ∈ sectionRoots then skip
      else if seen.contains url_l then skip
      else
        ⟨url, if text = "" then none else some text⟩
          :: collectCandidates seed_url same_domain_only allow_re deny_re rest (url_l :: seen)

/-- `discover_links_from_html` over parsed anchors: filter (bounded by
`scan_limit`), score, sort by descending score (stable), truncate to
`max_links`. -/
def discover_links (seed_url : String) (anchors : List (String × String))
    (max_links scan_limit : ℕ) (allow_re deny_re : Option (String → Bool))
    (same_domain_only : Bool) : List DiscoveredLink :=
  let scanned := if 0 < scan_limit then anchors.take scan_limit else anchors
  let candidates := collectCandidates seed_url same_domain_only allow_re deny_re scanned []
  let scored := candidates.map (fun c => (_score_candidate seed_url c.url c.title, c))
  let sorted := scored.mergeSort (fun x y => decide (y.1 ≤ x.1))
  (sorted.map Prod.snd).take max_links

/-- The anchors of the C6 scenario: hrefs `/markets`,
`/news/2024/05/01/fed-raises-rates.html`, `/topic/earnings`, `#`. -/
def exAnchors : List (String × String) :=
  [("/markets", "Markets"),
   ("/news/2024/05/01/fed-raises-rates.html", "Fed raises rates by 25 basis points"),
   ("/topic/earnings", "Earnings"),
   ("#", "Top")]

/-- The date-path article link of the scenario. -/
def exArticle : DiscoveredLink :=
  ⟨"https://example.com/news/2024/05/01/fed-raises-rates.html",
   some "Fed raises rates by 25 basis points"⟩

/-- The hub (topic) link of the scenario. -/
def exTopic : DiscoveredLink := ⟨"https://example.com/topic/earnings", some "Earnings"⟩

theorem scoreLe_trans : ∀ (a b c : ℚ × DiscoveredLink),
    (fun x y : ℚ × DiscoveredLink => decide (y.1 ≤ x.1)) a b = true →
    (fun x y : ℚ × DiscoveredLink => decide (y.1 ≤ x.1)) b c = true →
    (fun x y : ℚ × DiscoveredLink => decide (y.1 ≤ x.1)) a c = true := by
  intro a b c h1 h2
  simp only [decide_eq_true_eq] at h1 h2 ⊢
  exact le_trans h2 h1

theorem scoreLe_total : ∀ (a b : ℚ × DiscoveredLink),
    ((fun x y : ℚ × DiscoveredLink => decide (y.1 ≤ x.1)) a b
      || (fun x y : ℚ × DiscoveredLink => decide (y.1 ≤ x.1)) b a) = true := by
  intro a b
  simp only [Bool.or_eq_true, decide_eq_true_eq]
  exact le_total b.1 a.1

theorem mergeSort_sorted_id (l : List (ℚ × DiscoveredLink))
    (h : List.Pairwise
      (fun x y => (fun x y : ℚ × DiscoveredLink => decide (y.1 ≤ x.1)) x y = true) l) :
    l.mergeSort (fun x y => decide (y.1 ≤ x.1)) = l := by
  have hsub := List.sublist_mergeSort scoreLe_trans scoreLe_total h (List.Sublist.refl l)
  exact (hsub.eq_of_length (by rw [List.length_mergeSort])).symm

theorem score_exArticle :
    _score_candidate "https://example.com/markets" exArticle.url exArticle.title
      = 181/10 := by
  unfold _score_candidate
  simp only [exArticle]
  simp +decide
  rw [show (List.filter (fun s => !s == "") (splitStr '/' (asciiLower
    (urlparse "https://example.com/news/2024/05/01/fed-raises-rates.html").path))).length
    = 5 from by decide]
  norm_num

theorem score_exTopic :
    _score_candidate "https://example.com/markets" exTopic.url exTopic.title
      = -36/5 := by
  unfold _score_candidate
  simp only [exTopic]
  simp +decide
  rw [show (List.filter (fun s => !s == "") (splitStr '/' (asciiLower
    (urlparse "https://example.com/topic/earnings").path))).length
    = 2 from by decide]
  norm_num

theorem discover_example_eval :
    discover_links "https://example.com/markets" exAnchors 50 1500 none none true
      = [exArticle, exTopic] := by
  have hcands : collectCandidates "https://example.com/markets" true none none
      exAnchors [] = [exArticle, exTopic] := by decide
  have hs1 := score_exArticle
  have hs2 := score_exTopic
  unfold discover_links
  rw [show (if 0 < 1500 then exAnchors.take 1500 else exAnchors) = exAnchors from by decide]
  dsimp only
  rw [hcands]
  rw [List.map_cons, List.map_cons, List.map_nil]
  rw [hs1, hs2]
  rw [mergeSort_sorted_id _ (by
    constructor
    · intro b hb
      simp only [List.mem_singleton] at hb
      subst hb
      simp only [decide_eq_true_eq]
      norm_num
    · simp)]
  decide

/-- Counterexample to C6 as stated: filtering does not remove every
candidate except the date-path article — the `/topic/earnings` link
survives filtering (hub paths are only penalized in scoring, not
filtered) and is returned by discovery. -/
theorem discover_example_counterexample :
    exTopic ∈ discover_links "https://example.com/markets" exAnchors 50 1500 none none true
      ∧ exTopic.url ≠ exArticle.url := by
  refine ⟨?_, by decide⟩
  rw [discover_example_eval]
  simp

/-- C6 (amended): for the seed `https://example.com/markets` and anchors
`/markets`, `/news/2024/05/01/fed-raises-rates.html`, `/topic/earnings`
and `#`, the seed-equal candidates (`/markets` and `#`, which resolves
to the seed) are filtered out as section roots, the hub link
`/topic/earnings` survives filtering but is score-penalized, and
discovery returns the date-path article ranked first, strictly above
the surviving topic link. -/
theorem discover_example_ranking :
    discover_links "https://example.com/markets" exAnchors 50 1500 none none true
      = [exArticle, exTopic] ∧
    _score_candidate "https://example.com/markets" exTopic.url exTopic.title
      < _score_candidate "https://example.com/markets" exArticle.url exArticle.title := by
  refine ⟨discover_example_eval, ?_⟩
  rw [score_exArticle, score_exTopic]
  norm_num
